import Mathlib

/-!
Verification development for the engine-aware VSIX sync tool
(src/sync_vsix.py).

The Python source is shallowly embedded below.  External collaborators
are modelled as function parameters:

* the `semantic_version` library (an external dependency, not part of
  this repository) is abstracted by
  - a version parser `verParse : String → Option V` into an arbitrary
    linearly ordered type `V` (`semantic_version.Version(s)`; `none`
    models the `ValueError` raised on a malformed version string), and
  - a range checker `specCheck : String → V → Option Bool`
    (`engine in semantic_version.SimpleSpec(expr)`; `none` models the
    `ValueError` raised on a malformed range expression, `some b` a
    successful parse with membership answer `b`);
* the marketplace registry (`fetch_extension_metadata_ms`, which catches
  all of its own exceptions) is abstracted by
  `registry : String → Option Metadata` — `none` covers both "extension
  absent" and "fetch failed" (both make the Python function return
  `None`);
* network downloads and file deletions are abstracted by outcome
  oracles (`dl`, `delOk`).

Console output is modelled as structured `Warn` events, one constructor
per `print` site of the embedded functions (log *formatting* is out of
scope).  Uncaught Python exceptions are modelled as explicit error
values that stop the surrounding computation.
-/

namespace SyncVsix

/-- One entry of a version record's `files` list: an asset descriptor
with an asset type tag and an optional source URL (`f.get("source")`;
`none` models an absent key, and the empty string models a present but
falsy value — both fall through in the Python code). -/
structure FileAsset where
  assetType : String
  source : Option String
deriving DecidableEq

/-- One entry of a version record's `properties` list.  An absent
`key` behaves exactly like a key different from the engine key, so it
is modelled as a plain string; the `value` field is accessed as
`engine_prop["value"]` only on the record selected by key. -/
structure VProperty where
  key : String
  value : String
deriving DecidableEq

/-- One version record of the raw metadata (`metadata["versions"][i]`):
a version string, a property list (`vdata.get("properties", []) or []`)
and an asset list (`version_data.get("files", []) or []`). -/
structure VersionData where
  version : String
  properties : List VProperty
  files : List FileAsset
deriving DecidableEq

/-- The raw metadata document for one extension.
`publisherName` models `(metadata.get("publisher") or {}).get("publisherName")`
and `extensionName` models `metadata.get("extensionName")`;
`versions` models `metadata.get("versions", []) or []`. -/
structure Metadata where
  publisherName : Option String
  extensionName : Option String
  versions : List VersionData
deriving DecidableEq

/-- The warning lines printed by `find_compatible_versions_for_extension`,
one constructor per `print` site (message formatting is out of scope). -/
inductive Warn where
  /-- `[WARN] {ext_id}: not found in MS Marketplace` -/
  | notFound (ext : String)
  /-- `[WARN] {ext_id}: no versions in metadata` -/
  | noVersions (ext : String)
  /-- `[WARN] {ext_id}: no VSIX URL for {ver_str} in {market}` -/
  | noUrl (ext ver market : String)
  /-- `[WARN] {ext_id}: no compatible version for engine ... in market '{market}'` -/
  | noCompatible (ext market : String)
deriving DecidableEq

/-- The `MS_VSIX_BASE` URL template with `{publisher}`, `{name}` and
`{version}` substituted. -/
def msVsixUrl (publisher name version : String) : String :=
  "https://marketplace.visualstudio.com/_apis/public/gallery/publishers/"
    ++ publisher ++ "/vsextensions/" ++ name ++ "/" ++ version ++ "/vspackage"

/-- Embedding of `get_vsix_url_for_version`: scan the asset list for a
VSIX-package asset with a truthy source URL; otherwise fall back to the
gallery URL template when both publisher name and extension name are
present and truthy. -/
def get_vsix_url_for_version (md : Metadata) (vd : VersionData) (verStr : String) :
    Option String :=
  match vd.files.findSome? (fun f =>
      if f.assetType == "Microsoft.VisualStudio.Services.VSIXPackage" then
        match f.source with
        | some s => if s == "" then none else some s
        | none => none
      else none) with
  | some src => some src
  | none =>
    match md.publisherName, md.extensionName with
    | some pub, some name =>
      if pub == "" || name == "" then none else some (msVsixUrl pub name verStr)
    | some _, none => none
    | none, _ => none

/-- The `next((p for p in props if p.get("key") == "Microsoft.VisualStudio.Code.Engine"), None)`
lookup, returning the matching property's `value`. -/
def engineProp (vd : VersionData) : Option String :=
  (vd.properties.find? (fun p => p.key == "Microsoft.VisualStudio.Code.Engine")).map
    (fun p => p.value)

/-- A version record matches a target engine: it declares an engine
range expression that parses and contains the engine version. -/
def matchS {V : Type} (specCheck : String → V → Option Bool)
    (vd : VersionData) (engine : V) : Prop :=
  ∃ expr, engineProp vd = some expr ∧ specCheck expr engine = some true

instance {V : Type} (specCheck : String → V → Option Bool) (vd : VersionData) (engine : V) :
    Decidable (matchS specCheck vd engine) := by
  unfold matchS
  match h : engineProp vd with
  | none => exact .isFalse (by simp [h])
  | some e => exact decidable_of_iff (specCheck e engine = some true) (by simp [h])

/-- The inner `for vdata in versions_sorted` loop of
`find_compatible_versions_for_extension`, for one market: skip records
without an engine property, with a malformed range (`except ValueError:
continue`) or whose range excludes the engine; at the first record whose
range contains the engine, resolve the VSIX URL — on success select
`(version, url)`, on failure warn and `break` with no selection.
The list carries each record paired with its sort key. -/
def scanMarket {V : Type} (specCheck : String → V → Option Bool) (md : Metadata)
    (ext market : String) (engine : V) :
    List (V × VersionData) → Option (String × String) × List Warn
  | [] => (none, [])
  | (_, vd) :: rest =>
    match engineProp vd with
    | none => scanMarket specCheck md ext market engine rest
    | some expr =>
      match specCheck expr engine with
      | none => scanMarket specCheck md ext market engine rest
      | some false => scanMarket specCheck md ext market engine rest
      | some true =>
        match get_vsix_url_for_version md vd vd.version with
        | none => (none, [Warn.noUrl ext vd.version market])
        | some url => (some (vd.version, url), [])

/-- One iteration of the outer `for market, engine_ver in target_engines.items()`
loop: run the scan and, when the market ends up with no selection, warn
`no compatible version` (the Python check `if market not in per_market`
fires both when no record matched and after a no-URL `break`). -/
def processMarket {V : Type} (specCheck : String → V → Option Bool) (md : Metadata)
    (ext market : String) (engine : V) (sorted : List (V × VersionData)) :
    Option (String × String) × List Warn :=
  match scanMarket specCheck md ext market engine sorted with
  | (some s, ws) => (some s, ws)
  | (none, ws) => (none, ws ++ [Warn.noCompatible ext market])

/-- The outer market loop: build the `per_market` association list (in
target order, at most one entry per market) and collect warnings. -/
def perMarketLoop {V : Type} (specCheck : String → V → Option Bool) (md : Metadata)
    (ext : String) (sorted : List (V × VersionData)) :
    List (String × V) → List (String × String × String) × List Warn
  | [] => ([], [])
  | (market, engine) :: rest =>
    let r := processMarket specCheck md ext market engine sorted
    let t := perMarketLoop specCheck md ext sorted rest
    (match r.1 with
     | some s => (market, s.1, s.2) :: t.1
     | none => t.1,
     r.2 ++ t.2)

/-- Insert a keyed record into a descending-sorted list, after every
entry with a greater-or-equal key (so the overall sort is stable). -/
def insertDesc {V : Type} [LinearOrder V] (x : V × VersionData) :
    List (V × VersionData) → List (V × VersionData)
  | [] => [x]
  | y :: rest => if y.1 ≤ x.1 then x :: y :: rest else y :: insertDesc x rest

/-- Stable descending sort by key — extensionally the list produced by
Python's stable `sorted(versions, key=..., reverse=True)`. -/
def sortDesc {V : Type} [LinearOrder V] : List (V × VersionData) → List (V × VersionData)
  | [] => []
  | x :: rest => insertDesc x (sortDesc rest)

/-- Pair every version record with its parsed sort key
(`key=lambda v: semantic_version.Version(v["version"])`); `none` models
the uncaught `ValueError` raised by the first unparseable version
string. -/
def keyVersions {V : Type} (verParse : String → Option V) :
    List VersionData → Option (List (V × VersionData))
  | [] => some []
  | vd :: rest =>
    match verParse vd.version with
    | none => none
    | some k => (keyVersions verParse rest).map (fun t => (k, vd) :: t)

/-- Embedding of `find_compatible_versions_for_extension` (given the
already-fetched metadata; the Python function performs the fetch itself
and additionally returns the raw metadata, which `sync_markets`
discards).  Result: the `per_market` association list of
`(market, version, url)` triples plus the warnings printed, or an error
when a version string fails to parse (an uncaught exception in the
Python source). -/
def find_compatible_versions_for_extension {V : Type} [LinearOrder V]
    (verParse : String → Option V) (specCheck : String → V → Option Bool)
    (mdOpt : Option Metadata) (ext : String) (targets : List (String × V)) :
    Except String (List (String × String × String) × List Warn) :=
  match mdOpt with
  | none => .ok ([], [Warn.notFound ext])
  | some md =>
    if md.versions.isEmpty then .ok ([], [Warn.noVersions ext])
    else
      match keyVersions verParse md.versions with
      | none => .error ("ValueError: invalid version string in " ++ ext)
      | some keyed => .ok (perMarketLoop specCheck md ext (sortDesc keyed) targets)

/-! ### Downloads, directory state and the sync orchestrator -/

/-- Outcome of one attempted network download, enumerating the failure
points of the `try` block of `download_vsix`:
`urllib.request.urlopen(url)` is evaluated first, then
`open(dest_path, "wb")` creates (truncates) the destination file, then
`resp.read()` and `out.write(...)` transfer the bytes.
* `ok` — the transfer succeeds;
* `failConnect` — `urlopen` raises, so `open` is never evaluated and no
  destination file is created;
* `failLate` — `read` (or `write`) raises after the destination file
  has already been opened for writing, leaving an empty (or partial)
  file behind. -/
inductive DlOutcome where
  | ok
  | failConnect
  | failLate
deriving DecidableEq

/-- Result of one `download_vsix` call: the directory contents
afterwards, whether a transfer was attempted (the destination was not
already present), and whether the failure message was printed. -/
structure DlResult where
  dir : List String
  attempted : Bool
  failLogged : Bool
deriving DecidableEq

/-- Embedding of `download_vsix`.  A directory is the list of file
names it contains; `outcome` is the collaborator's behaviour for this
transfer.  If the destination already exists the function returns
immediately; otherwise the transfer is attempted and every exception is
caught and printed (the call never propagates an error). -/
def download_vsix (outcome : DlOutcome) (dir : List String) (dest : String) : DlResult :=
  if dest ∈ dir then ⟨dir, false, false⟩
  else
    match outcome with
    | .ok => ⟨dir ++ [dest], true, false⟩
    | .failConnect => ⟨dir, true, true⟩
    | .failLate => ⟨dir ++ [dest], true, true⟩

/-- The file name filter of the cleanup loop: `dir_path.glob("*.vsix")`
keeps exactly the entries whose name ends with `.vsix` (pathlib's `*`
also matches the empty string and dot-files). -/
def hasVsixExt (s : String) : Bool :=
  List.isPrefixOf (String.data ".vsix").reverse (String.data s).reverse

/-- The `{ext_id}-{ver_str}.vsix` naming convention. -/
def mkVsixFilename (ext ver : String) : String :=
  ext ++ "-" ++ ver ++ ".vsix"

/-- Look up a market's entry in an association list of directory
contents (first occurrence; absent markets read as empty). -/
def lookupD (fs : List (String × List String)) (m : String) : List String :=
  ((fs.find? (fun p => p.1 == m)).map (fun p => p.2)).getD []

/-- Replace the first entry for market `m` (no-op when absent). -/
def updateA : List (String × List String) → String → List String → List (String × List String)
  | [], _, _ => []
  | p :: rest, m, d => if p.1 == m then (m, d) :: rest else p :: updateA rest m d

/-- Whether the association list has an entry for `m`. -/
def hasKey (fs : List (String × List String)) (m : String) : Bool :=
  (fs.find? (fun p => p.1 == m)).isSome

/-- The `path.mkdir(parents=True, exist_ok=True)` loop: ensure every
selected market has a directory, leaving existing ones untouched. -/
def ensureDirs (fs : List (String × List String)) : List String → List (String × List String)
  | [] => fs
  | m :: rest => ensureDirs (if hasKey fs m then fs else fs ++ [(m, [])]) rest

/-- `expected_files[market].add(filename)` — set semantics on a list. -/
def addIfAbsent (l : List String) (f : String) : List String :=
  if f ∈ l then l else l ++ [f]

/-- The mutable state of one `sync_markets` run: per-market directory
contents, per-market expected file names, the number of download
transfers attempted, and the warnings printed so far. -/
structure SyncState where
  fs : List (String × List String)
  expected : List (String × List String)
  downloads : Nat
  warns : List Warn
deriving DecidableEq

/-- The `for market, (ver_str, url) in per_market.items()` loop of
`sync_markets`: record each selected file name in the market's expected
set and invoke `download_vsix` on the market's directory.  `dl` is the
download collaborator's outcome, keyed by market and destination file
name. -/
def applySelections (dl : String → String → DlOutcome) (ext : String) :
    List (String × String × String) → SyncState → SyncState
  | [], st => st
  | (m, v, _) :: rest, st =>
    let fname := mkVsixFilename ext v
    let r := download_vsix (dl m fname) (lookupD st.fs m) fname
    applySelections dl ext rest
      { st with
        expected := updateA st.expected m (addIfAbsent (lookupD st.expected m) fname)
        fs := updateA st.fs m r.dir
        downloads := st.downloads + (if r.attempted then 1 else 0) }

/-- The `for ext_id in exts` loop of `sync_markets`: resolve each
extension and apply its per-market selections.  A `.error` from the
resolver is an uncaught Python exception: the loop stops and the error
is reported together with the state reached so far. -/
def extLoop {V : Type} [LinearOrder V]
    (verParse : String → Option V) (specCheck : String → V → Option Bool)
    (registry : String → Option Metadata) (dl : String → String → DlOutcome)
    (targets : List (String × V)) :
    List String → SyncState → SyncState × Option String
  | [], st => (st, none)
  | e :: rest, st =>
    match find_compatible_versions_for_extension verParse specCheck (registry e) e targets with
    | .error msg => (st, some msg)
    | .ok (pm, ws) =>
      extLoop verParse specCheck registry dl targets rest
        (applySelections dl e pm { st with warns := st.warns ++ ws })

/-- The `for vsix_path in dir_path.glob("*.vsix")` cleanup loop for one
market directory: delete every `.vsix` entry not in `keep`.  `delOk`
is the filesystem collaborator; a failing `unlink` raises an uncaught
`OSError`, so the loop stops with the failing file and all later
entries still present.  Result: directory contents afterwards, number
of deletions performed, and the uncaught error if any. -/
def cleanupDir (delOk : String → Bool) (keep : List String) :
    List String → List String × Nat × Option String
  | [] => ([], 0, none)
  | f :: rest =>
    if hasVsixExt f ∧ f ∉ keep then
      if delOk f then
        let r := cleanupDir delOk keep rest
        (r.1, r.2.1 + 1, r.2.2)
      else (f :: rest, 0, some ("OSError: unlink failed: " ++ f))
    else
      let r := cleanupDir delOk keep rest
      (f :: r.1, r.2.1, r.2.2)

/-- The `for market, dir_path in market_dirs.items()` cleanup loop: an
uncaught deletion error aborts the whole loop, leaving the remaining
markets untouched. -/
def cleanupLoop (delOk : String → String → Bool)
    (expected : List (String × List String)) :
    List (String × List String) → List String →
    List (String × List String) × Nat × Option String
  | fs, [] => (fs, 0, none)
  | fs, m :: rest =>
    let r := cleanupDir (delOk m) (lookupD expected m) (lookupD fs m)
    let fs1 := updateA fs m r.1
    match r.2.2 with
    | some err => (fs1, r.2.1, some err)
    | none =>
      let t := cleanupLoop delOk expected fs1 rest
      (t.1, r.2.1 + t.2.1, t.2.2)

/-- Embedding of `sync_markets` (with the extension list `exts` already
computed, cf. `get_extensions_to_sync`):  create the per-market
directories, initialise every selected market's expected set to empty,
run the extension loop, then — unless an exception already aborted the
run — the cleanup loop.  Result: final state, number of deletions, and
the uncaught exception if any.  (The Python function also returns the
list of synced markets, used only for printing suggested commands.) -/
def sync_markets {V : Type} [LinearOrder V]
    (verParse : String → Option V) (specCheck : String → V → Option Bool)
    (registry : String → Option Metadata) (dl : String → String → DlOutcome)
    (delOk : String → String → Bool)
    (targets : List (String × V)) (exts : List String)
    (fs0 : List (String × List String)) :
    SyncState × Nat × Option String :=
  let marketNames := targets.map (fun p => p.1)
  let fs1 := ensureDirs fs0 marketNames
  let exp0 := marketNames.map (fun m => (m, ([] : List String)))
  let st0 : SyncState := ⟨fs1, exp0, 0, []⟩
  match extLoop verParse specCheck registry dl targets exts st0 with
  | (st1, some msg) => (st1, 0, some msg)
  | (st1, none) =>
    let c := cleanupLoop delOk st1.expected st1.fs marketNames
    ({ st1 with fs := c.1 }, c.2.1, c.2.2)

/-- Python's `str.lower()` on extension identifiers (ASCII), mapped
character by character. -/
def lowerId (s : String) : String := ⟨s.data.map Char.toLower⟩

/-- Embedding of `get_extensions_to_sync`: if the hard-coded
`EXTENSIONS` list is non-empty, use it, otherwise the installed list;
either way lowercase, deduplicate (set semantics) and sort. -/
def get_extensions_to_sync (extensions installedIds : List String) : List String :=
  if extensions.isEmpty then
    ((installedIds.map lowerId).dedup).mergeSort (fun a b => decide (a ≤ b))
  else
    ((extensions.map lowerId).dedup).mergeSort (fun a b => decide (a ≤ b))

/-! ### Association-list helper lemmas -/

theorem hasKey_nil (m : String) : hasKey [] m = false := rfl

theorem hasKey_cons (p : String × List String) (rest : List (String × List String)) (m : String) :
    hasKey (p :: rest) m = (p.1 == m || hasKey rest m) := by
  by_cases h : p.1 == m <;> simp [hasKey, List.find?_cons, h]

theorem lookupD_cons_pos {p : String × List String} {m : String}
    (rest : List (String × List String)) (h : p.1 = m) :
    lookupD (p :: rest) m = p.2 := by
  simp [lookupD, List.find?_cons, h]

theorem lookupD_cons_neg {p : String × List String} {m : String}
    (rest : List (String × List String)) (h : ¬ p.1 = m) :
    lookupD (p :: rest) m = lookupD rest m := by
  simp [lookupD, List.find?_cons, h]

theorem updateA_absent {fs : List (String × List String)} {m : String}
    (h : hasKey fs m = false) (d : List String) : updateA fs m d = fs := by
  induction fs with
  | nil => rfl
  | cons p rest ih =>
    rw [hasKey_cons] at h
    rcases Bool.or_eq_false_iff.mp h with ⟨h1, h2⟩
    simp [updateA, h1, ih h2]

theorem updateA_self (fs : List (String × List String)) (m : String) :
    updateA fs m (lookupD fs m) = fs := by
  induction fs with
  | nil => rfl
  | cons p rest ih =>
    by_cases h : p.1 = m
    · obtain ⟨p1, p2⟩ := p
      simp only at h
      subst h
      rw [lookupD_cons_pos rest rfl]
      simp [updateA]
    · rw [lookupD_cons_neg rest h]
      simp only [updateA, beq_iff_eq, h, if_false]
      rw [ih]

theorem lookupD_updateA_ne {m m' : String} (h : ¬ m' = m)
    (fs : List (String × List String)) (d : List String) :
    lookupD (updateA fs m d) m' = lookupD fs m' := by
  induction fs with
  | nil => rfl
  | cons p rest ih =>
    by_cases hp : p.1 = m
    · simp only [updateA, beq_iff_eq, hp, if_true]
      rw [lookupD_cons_neg rest (fun he => h he.symm), lookupD_cons_neg rest (hp ▸ fun he => h he.symm)]
    · simp only [updateA, beq_iff_eq, hp, if_false]
      by_cases hq : p.1 = m'
      · rw [lookupD_cons_pos _ hq, lookupD_cons_pos rest hq]
      · rw [lookupD_cons_neg _ hq, lookupD_cons_neg rest hq, ih]

theorem lookupD_updateA_pos {fs : List (String × List String)} {m : String}
    (h : hasKey fs m = true) (d : List String) :
    lookupD (updateA fs m d) m = d := by
  induction fs with
  | nil => simp [hasKey] at h
  | cons p rest ih =>
    by_cases hp : p.1 = m
    · simp only [updateA, beq_iff_eq, hp, if_true]
      exact lookupD_cons_pos _ rfl
    · rw [hasKey_cons] at h
      have h2 : hasKey rest m = true := by
        rcases Bool.or_eq_true_iff.mp h with h1 | h1
        · exact absurd (by simpa using h1) hp
        · exact h1
      simp only [updateA, beq_iff_eq, hp, if_false]
      rw [lookupD_cons_neg _ hp]
      exact ih h2

theorem hasKey_updateA (fs : List (String × List String)) (m m' : String) (d : List String) :
    hasKey (updateA fs m d) m' = hasKey fs m' := by
  induction fs with
  | nil => rfl
  | cons p rest ih =>
    by_cases hp : p.1 = m
    · simp only [updateA, beq_iff_eq, hp, if_true]
      rw [hasKey_cons, hasKey_cons, hp]
    · simp only [updateA, beq_iff_eq, hp, if_false]
      rw [hasKey_cons, hasKey_cons, ih]

theorem hasKey_append_of {fs : List (String × List String)} {m : String}
    (l : List (String × List String)) (h : hasKey fs m = true) :
    hasKey (fs ++ l) m = true := by
  induction fs with
  | nil => simp [hasKey] at h
  | cons p r ih =>
    rw [List.cons_append, hasKey_cons]
    rw [hasKey_cons] at h
    rcases Bool.or_eq_true_iff.mp h with h1 | h2
    · simp [h1]
    · simp [ih h2]

theorem hasKey_ensureDirs_of_hasKey {fs : List (String × List String)} {m : String}
    (h : hasKey fs m = true) : ∀ M, hasKey (ensureDirs fs M) m = true := by
  intro M
  induction M generalizing fs with
  | nil => exact h
  | cons m0 rest ih =>
    simp only [ensureDirs]
    by_cases h0 : hasKey fs m0
    · simp only [h0, if_true]
      exact ih h
    · simp only [h0, Bool.false_eq_true, if_false]
      exact ih (hasKey_append_of _ h)

theorem hasKey_append_right (fs : List (String × List String)) (q : String × List String) :
    hasKey (fs ++ [q]) q.1 = true := by
  induction fs with
  | nil => simp [hasKey_cons]
  | cons p rest ih =>
    rw [List.cons_append, hasKey_cons, ih]
    simp

theorem ensureDirs_hasKey (fs : List (String × List String)) {M : List String} {m : String}
    (hm : m ∈ M) : hasKey (ensureDirs fs M) m = true := by
  induction M generalizing fs with
  | nil => cases hm
  | cons m0 rest ih =>
    simp only [ensureDirs]
    rcases List.mem_cons.mp hm with h | h
    · subst h
      by_cases h0 : hasKey fs m
      · simp only [h0, if_true]
        exact hasKey_ensureDirs_of_hasKey h0 rest
      · simp only [h0, Bool.false_eq_true, if_false]
        exact hasKey_ensureDirs_of_hasKey (hasKey_append_right fs (m, [])) rest
    · by_cases h0 : hasKey fs m0 <;> simp only [h0, if_true, Bool.false_eq_true, if_false] <;>
        exact ih _ h

theorem ensureDirs_noop {fs : List (String × List String)} {M : List String}
    (h : ∀ m ∈ M, hasKey fs m = true) : ensureDirs fs M = fs := by
  induction M with
  | nil => rfl
  | cons m0 rest ih =>
    simp only [ensureDirs, h m0 (List.mem_cons_self m0 rest), if_true]
    exact ih (fun m hm => h m (List.mem_cons_of_mem _ hm))

theorem mem_addIfAbsent_of_mem {l : List String} {f : String} (g : String) (h : f ∈ l) :
    f ∈ addIfAbsent l g := by
  unfold addIfAbsent
  by_cases hg : g ∈ l <;> simp [hg, h]

theorem self_mem_addIfAbsent (l : List String) (g : String) : g ∈ addIfAbsent l g := by
  unfold addIfAbsent
  by_cases hg : g ∈ l <;> simp [hg]

theorem mem_addIfAbsent {l : List String} {f g : String} (h : f ∈ addIfAbsent l g) :
    f ∈ l ∨ f = g := by
  unfold addIfAbsent at h
  by_cases hg : g ∈ l
  · simp only [hg, if_true] at h
    exact Or.inl h
  · simp only [hg, if_false] at h
    simpa using h

theorem lookupD_map_nil (M : List String) (m : String) :
    lookupD (M.map (fun m => (m, ([] : List String)))) m = [] := by
  induction M with
  | nil => rfl
  | cons m0 rest ih =>
    by_cases h : m0 = m
    · exact lookupD_cons_pos _ h
    · rw [List.map_cons, lookupD_cons_neg _ h]
      exact ih

/-! ### Selector lemmas -/

theorem keyVersions_mem_left {V : Type} {verParse : String → Option V}
    {l : List VersionData} {keyed : List (V × VersionData)}
    (h : keyVersions verParse l = some keyed) :
    ∀ {k : V} {vd : VersionData}, (k, vd) ∈ keyed → vd ∈ l ∧ verParse vd.version = some k := by
  induction l generalizing keyed with
  | nil =>
    simp only [keyVersions, Option.some.injEq] at h
    subst h
    intro k vd hk
    cases hk
  | cons vd0 rest ih =>
    intro k vd hk
    simp only [keyVersions] at h
    cases hv : verParse vd0.version with
    | none => rw [hv] at h; cases h
    | some k0 =>
      rw [hv] at h
      cases hrest : keyVersions verParse rest with
      | none => rw [hrest] at h; cases h
      | some t =>
        rw [hrest] at h
        simp only [Option.map_some', Option.some.injEq] at h
        subst h
        rcases List.mem_cons.mp hk with h1 | h1
        · rw [Prod.mk.injEq] at h1
          obtain ⟨hk0, hvd0⟩ := h1
          subst hk0; subst hvd0
          exact ⟨List.mem_cons_self _ _, hv⟩
        · obtain ⟨hm, hp⟩ := ih hrest h1
          exact ⟨List.mem_cons_of_mem _ hm, hp⟩

theorem keyVersions_mem_right {V : Type} {verParse : String → Option V}
    {l : List VersionData} {keyed : List (V × VersionData)}
    (h : keyVersions verParse l = some keyed) :
    ∀ {vd : VersionData}, vd ∈ l → ∃ k, verParse vd.version = some k ∧ (k, vd) ∈ keyed := by
  induction l generalizing keyed with
  | nil => intro vd hvd; cases hvd
  | cons vd0 rest ih =>
    intro vd hvd
    simp only [keyVersions] at h
    cases hv : verParse vd0.version with
    | none => rw [hv] at h; cases h
    | some k0 =>
      rw [hv] at h
      cases hrest : keyVersions verParse rest with
      | none => rw [hrest] at h; cases h
      | some t =>
        rw [hrest] at h
        simp only [Option.map_some', Option.some.injEq] at h
        subst h
        rcases List.mem_cons.mp hvd with h1 | h1
        · subst h1
          exact ⟨k0, hv, List.mem_cons_self _ _⟩
        · obtain ⟨k, hp, hm⟩ := ih hrest h1
          exact ⟨k, hp, List.mem_cons_of_mem _ hm⟩

theorem scanMarket_skip {V : Type} {specCheck : String → V → Option Bool} {md : Metadata}
    {ext market : String} {engine : V} {p : V × VersionData}
    (h : ¬ matchS specCheck p.2 engine) (rest : List (V × VersionData)) :
    scanMarket specCheck md ext market engine (p :: rest)
      = scanMarket specCheck md ext market engine rest := by
  obtain ⟨k, vd⟩ := p
  cases he : engineProp vd with
  | none => simp only [scanMarket, he]
  | some expr =>
    cases hs : specCheck expr engine with
    | none => simp only [scanMarket, he, hs]
    | some b =>
      cases b with
      | false => simp only [scanMarket, he, hs]
      | true => exact absurd ⟨expr, he, hs⟩ h

theorem scanMarket_some_spec {V : Type} [LinearOrder V] {specCheck : String → V → Option Bool}
    {md : Metadata} {ext market : String} {engine : V}
    {l : List (V × VersionData)} {v u : String} {ws : List Warn}
    (hpw : List.Pairwise (fun a b : V × VersionData => b.1 ≤ a.1) l)
    (hscan : scanMarket specCheck md ext market engine l = (some (v, u), ws)) :
    ∃ k vd, (k, vd) ∈ l ∧ vd.version = v ∧ matchS specCheck vd engine ∧
      get_vsix_url_for_version md vd vd.version = some u ∧
      ∀ k' vd', (k', vd') ∈ l → matchS specCheck vd' engine → k' ≤ k := by
  induction l with
  | nil => simp [scanMarket] at hscan
  | cons p rest ih =>
    rw [List.pairwise_cons] at hpw
    obtain ⟨hhead, htail⟩ := hpw
    by_cases hm : matchS specCheck p.2 engine
    · obtain ⟨k0, vd0⟩ := p
      obtain ⟨expr, he, hs⟩ := hm
      simp only [scanMarket, he, hs] at hscan
      cases hu : get_vsix_url_for_version md vd0 vd0.version with
      | none => rw [hu] at hscan; simp at hscan
      | some url0 =>
        rw [hu] at hscan
        simp only [Prod.mk.injEq, Option.some.injEq] at hscan
        obtain ⟨⟨hv, hu2⟩, hws⟩ := hscan
        refine ⟨k0, vd0, List.mem_cons_self _ _, hv, ⟨expr, he, hs⟩, ?_, ?_⟩
        · rw [hu, hu2]
        · intro k' vd' hmem' hm'
          rcases List.mem_cons.mp hmem' with h1 | h1
          · rw [Prod.mk.injEq] at h1
            exact le_of_eq h1.1
          · exact hhead (k', vd') h1
    · rw [scanMarket_skip hm rest] at hscan
      obtain ⟨k, vd, hmem, hv, hmS, hu, hmax⟩ := ih htail hscan
      refine ⟨k, vd, List.mem_cons_of_mem _ hmem, hv, hmS, hu, ?_⟩
      intro k' vd' hmem' hm'
      rcases List.mem_cons.mp hmem' with h1 | h1
      · exact absurd (h1 ▸ hm' : matchS specCheck p.2 engine) hm
      · exact hmax k' vd' h1 hm'

theorem processMarket_some {V : Type} {specCheck : String → V → Option Bool} {md : Metadata}
    {ext market : String} {engine : V} {sorted : List (V × VersionData)}
    {s : String × String}
    (h : (processMarket specCheck md ext market engine sorted).1 = some s) :
    ∃ ws, scanMarket specCheck md ext market engine sorted = (some s, ws) := by
  unfold processMarket at h
  cases hs : scanMarket specCheck md ext market engine sorted with
  | mk sel ws =>
    rw [hs] at h
    cases sel with
    | none => simp at h
    | some s0 =>
      simp only at h
      cases h
      exact ⟨ws, rfl⟩

theorem perMarketLoop_mem {V : Type} {specCheck : String → V → Option Bool} {md : Metadata}
    {ext : String} {sorted : List (V × VersionData)}
    {ts : List (String × V)} {m v u : String}
    (h : (m, v, u) ∈ (perMarketLoop specCheck md ext sorted ts).1) :
    ∃ eng, (m, eng) ∈ ts ∧ (processMarket specCheck md ext m eng sorted).1 = some (v, u) := by
  induction ts with
  | nil => cases h
  | cons t rest ih =>
    obtain ⟨m0, eng0⟩ := t
    simp only [perMarketLoop] at h
    cases hr : (processMarket specCheck md ext m0 eng0 sorted).1 with
    | some s =>
      rw [hr] at h
      rcases List.mem_cons.mp h with h1 | h1
      · rw [Prod.mk.injEq] at h1
        obtain ⟨h1m, h1s⟩ := h1
        subst h1m
        refine ⟨eng0, List.mem_cons_self _ _, ?_⟩
        rw [hr]
        rw [Prod.mk.injEq] at h1s
        obtain ⟨hsv, hsu⟩ := h1s
        rw [hsv, hsu]
      · obtain ⟨eng, hmem, hp⟩ := ih h1
        exact ⟨eng, List.mem_cons_of_mem _ hmem, hp⟩
    | none =>
      rw [hr] at h
      obtain ⟨eng, hmem, hp⟩ := ih h
      exact ⟨eng, List.mem_cons_of_mem _ hmem, hp⟩

theorem mem_assoc_nodup_unique {α β : Type} {ts : List (α × β)}
    (hnd : (ts.map Prod.fst).Nodup) {m : α} {a b : β}
    (ha : (m, a) ∈ ts) (hb : (m, b) ∈ ts) : a = b := by
  induction ts with
  | nil => cases ha
  | cons t rest ih =>
    rw [List.map_cons, List.nodup_cons] at hnd
    obtain ⟨hnmem, hnd2⟩ := hnd
    rcases List.mem_cons.mp ha with h1 | h1
    · rcases List.mem_cons.mp hb with h2 | h2
      · rw [← h1] at h2
        rw [Prod.mk.injEq] at h2
        exact h2.2.symm
      · exfalso
        apply hnmem
        have hmm : (m, b).1 ∈ rest.map Prod.fst := List.mem_map_of_mem Prod.fst h2
        rw [← h1]
        exact hmm
    · rcases List.mem_cons.mp hb with h2 | h2
      · exfalso
        apply hnmem
        have hmm : (m, a).1 ∈ rest.map Prod.fst := List.mem_map_of_mem Prod.fst h1
        rw [← h2]
        exact hmm
      · exact ih hnd2 h1 h2

theorem mem_insertDesc {V : Type} [LinearOrder V] {x a : V × VersionData}
    {l : List (V × VersionData)} : a ∈ insertDesc x l ↔ a = x ∨ a ∈ l := by
  induction l with
  | nil => simp [insertDesc]
  | cons y rest ih =>
    simp only [insertDesc]
    by_cases h : y.1 ≤ x.1
    · simp [h, List.mem_cons]
    · simp only [h, if_false, List.mem_cons, ih]
      tauto

theorem pairwise_insertDesc {V : Type} [LinearOrder V] {x : V × VersionData}
    {l : List (V × VersionData)}
    (h : List.Pairwise (fun a b : V × VersionData => b.1 ≤ a.1) l) :
    List.Pairwise (fun a b : V × VersionData => b.1 ≤ a.1) (insertDesc x l) := by
  induction l with
  | nil => simp [insertDesc]
  | cons y rest ih =>
    rw [List.pairwise_cons] at h
    obtain ⟨hy, hrest⟩ := h
    simp only [insertDesc]
    by_cases hle : y.1 ≤ x.1
    · simp only [hle, if_true]
      rw [List.pairwise_cons]
      refine ⟨?_, ?_⟩
      · intro b hb
        rcases List.mem_cons.mp hb with h1 | h1
        · subst h1; exact hle
        · exact le_trans (hy b h1) hle
      · rw [List.pairwise_cons]
        exact ⟨hy, hrest⟩
    · simp only [hle, if_false]
      rw [List.pairwise_cons]
      refine ⟨?_, ih hrest⟩
      intro b hb
      rcases mem_insertDesc.mp hb with h1 | h1
      · subst h1
        exact le_of_lt (lt_of_not_le hle)
      · exact hy b h1

theorem mem_sortDesc {V : Type} [LinearOrder V] {a : V × VersionData}
    {l : List (V × VersionData)} : a ∈ sortDesc l ↔ a ∈ l := by
  induction l with
  | nil => simp [sortDesc]
  | cons x rest ih =>
    simp only [sortDesc, mem_insertDesc, ih, List.mem_cons]

theorem pairwise_sortDesc {V : Type} [LinearOrder V] (l : List (V × VersionData)) :
    List.Pairwise (fun a b : V × VersionData => b.1 ≤ a.1) (sortDesc l) := by
  induction l with
  | nil => exact List.Pairwise.nil
  | cons x rest ih => exact pairwise_insertDesc ih

/-! ### Concrete collaborator instances for concrete runs

These instantiate the abstract collaborator parameters on a handful of
inputs, faithfully to the external libraries' behaviour on those
inputs: `semantic_version.Version` parses `major.minor.patch` strings
and raises `ValueError` on a string like `"garbage"`;
`semantic_version.SimpleSpec` raises `ValueError` on a malformed range
expression such as `"bogus"`. -/

/-- The well-known engine-range property key. -/
def engKey : String := "Microsoft.VisualStudio.Code.Engine"

/-- Concrete version parser (a fragment of `semantic_version.Version`):
the versions that occur in the concrete catalogs below parse to their
major number; anything else — in particular `"garbage"` — fails. -/
def verParseC : String → Option Nat
  | "1.0.0" => some 1
  | "2.0.0" => some 2
  | "3.0.0" => some 3
  | _ => none

/-- Concrete range checker (a fragment of `semantic_version.SimpleSpec`
membership): `"compat-all"` parses and contains every engine,
`"compat-none"` parses and contains none, and any other expression —
in particular `"bogus"` — is malformed and fails to parse. -/
def specCheckC : String → Nat → Option Bool
  | "compat-all", _ => some true
  | "compat-none", _ => some false
  | _, _ => none

/-- Catalog with two well-formed compatible versions (newest `2.0.0`). -/
def mdPair : Metadata :=
  ⟨some "pub", some "ext",
   [⟨"2.0.0", [⟨engKey, "compat-all"⟩], []⟩,
    ⟨"1.0.0", [⟨engKey, "compat-all"⟩], []⟩]⟩

/-- Catalog whose newest version `2.0.0` declares the malformed range
expression `"bogus"`, while the older `1.0.0` is compatible. -/
def mdMalformedNewest : Metadata :=
  ⟨some "pub", some "ext",
   [⟨"2.0.0", [⟨engKey, "bogus"⟩], []⟩,
    ⟨"1.0.0", [⟨engKey, "compat-all"⟩], []⟩]⟩

/-- Catalog with no resolvable artifact location (no VSIX asset entries
and no publisher name), both versions compatible. -/
def mdNoUrl : Metadata :=
  ⟨none, some "ext",
   [⟨"2.0.0", [⟨engKey, "compat-all"⟩], []⟩,
    ⟨"1.0.0", [⟨engKey, "compat-all"⟩], []⟩]⟩

/-- Catalog whose single version string `"garbage"` does not parse. -/
def mdGarbageVersion : Metadata :=
  ⟨some "pub", some "ext", [⟨"garbage", [⟨engKey, "compat-all"⟩], []⟩]⟩

/-- Catalog with a single well-formed compatible version. -/
def mdGood : Metadata :=
  ⟨some "pub", some "ext", [⟨"1.0.0", [⟨engKey, "compat-all"⟩], []⟩]⟩

/-- Registry serving `a.bad` (unparseable version string) and `b.good`
(well-formed). -/
def regMixed : String → Option Metadata
  | "a.bad" => some mdGarbageVersion
  | "b.good" => some mdGood
  | _ => none

/-! ### Claim theorems: the per-market version selector -/

/-- C1: for every catalog, collaborator behaviour and target map, the
per-market selection (`find_compatible_versions_for_extension`) never
returns, for a market, a version whose declared engine-compatibility
range does not include that market's target engine version; and every
record whose range includes the target has a version key no higher
than the returned version's key — the returned version is the newest
match. -/
theorem selector_sound_and_newest {V : Type} [LinearOrder V]
    (verParse : String → Option V) (specCheck : String → V → Option Bool)
    (md : Metadata) (ext : String) (targets : List (String × V))
    (pm : List (String × String × String)) (ws : List Warn)
    (hnd : (targets.map Prod.fst).Nodup)
    (hok : find_compatible_versions_for_extension verParse specCheck (some md) ext targets
      = .ok (pm, ws))
    (m : String) (eng : V) (ver url : String)
    (hm : (m, eng) ∈ targets) (hsel : (m, ver, url) ∈ pm) :
    (∃ vd ∈ md.versions, vd.version = ver ∧ matchS specCheck vd eng) ∧
    (∀ vd ∈ md.versions, matchS specCheck vd eng →
      ∀ kvd kv, verParse vd.version = some kvd → verParse ver = some kv → kvd ≤ kv) := by
  simp only [find_compatible_versions_for_extension] at hok
  by_cases hemp : md.versions.isEmpty
  · rw [if_pos hemp] at hok
    simp only [Except.ok.injEq, Prod.mk.injEq] at hok
    rw [← hok.1] at hsel
    cases hsel
  · rw [if_neg hemp] at hok
    cases hkv : keyVersions verParse md.versions with
    | none => rw [hkv] at hok; cases hok
    | some keyed =>
      rw [hkv] at hok
      simp only [Except.ok.injEq] at hok
      have hsel2 : (m, ver, url) ∈ (perMarketLoop specCheck md ext (sortDesc keyed) targets).1 := by
        rw [hok]
        exact hsel
      obtain ⟨eng', hmem', hproc⟩ := perMarketLoop_mem hsel2
      have heq : eng = eng' := mem_assoc_nodup_unique hnd hm hmem'
      subst heq
      obtain ⟨ws0, hscan⟩ := processMarket_some hproc
      obtain ⟨k, vd, hmemS, hv, hmS, _, hmax⟩ :=
        scanMarket_some_spec (pairwise_sortDesc keyed) hscan
      have hmemK : (k, vd) ∈ keyed := mem_sortDesc.mp hmemS
      obtain ⟨hmemV, hparse⟩ := keyVersions_mem_left hkv hmemK
      constructor
      · exact ⟨vd, hmemV, hv, hmS⟩
      · intro vd' hmem2 hm2 kvd kv hkvd hkv2
        obtain ⟨k', hp', hmemK'⟩ := keyVersions_mem_right hkv hmem2
        have hk'_eq : k' = kvd := by
          rw [hp'] at hkvd
          exact Option.some.inj hkvd
        have hle : k' ≤ k := hmax k' vd' (mem_sortDesc.mpr hmemK') hm2
        have hkv3 : kv = k := by
          rw [← hv] at hkv2
          rw [hparse] at hkv2
          exact (Option.some.inj hkv2).symm
        rw [← hk'_eq, hkv3]
        exact hle

/-- Witness for C1 at a concrete input: catalog `mdPair` with target
engine `1` for market `cursor`; the selection is version `2.0.0`. -/
theorem selector_sound_and_newest_witness :
    (∃ vd ∈ mdPair.versions, vd.version = "2.0.0" ∧ matchS specCheckC vd 1) ∧
    (∀ vd ∈ mdPair.versions, matchS specCheckC vd 1 →
      ∀ kvd kv, verParseC vd.version = some kvd → verParseC "2.0.0" = some kv →
        kvd ≤ kv) :=
  selector_sound_and_newest verParseC specCheckC mdPair "pub.ext" [("cursor", 1)]
    [("cursor", "2.0.0", msVsixUrl "pub" "ext" "2.0.0")] [] (by decide) (by rfl)
    "cursor" 1 "2.0.0" (msVsixUrl "pub" "ext" "2.0.0") (by decide) (by decide)

/-- C7: when the first (newest) record whose range matches the
market's target engine has no resolvable artifact location, the
selector warns and produces no selection at all for that market — it
never falls through to an older matching version. -/
theorem no_url_abandons_market {V : Type} (specCheck : String → V → Option Bool)
    (md : Metadata) (ext market : String) (engine : V)
    (l1 l2 : List (V × VersionData)) (k : V) (vd : VersionData)
    (h1 : ∀ p ∈ l1, ¬ matchS specCheck p.2 engine)
    (h2 : matchS specCheck vd engine)
    (h3 : get_vsix_url_for_version md vd vd.version = none) :
    processMarket specCheck md ext market engine (l1 ++ (k, vd) :: l2)
      = (none, [Warn.noUrl ext vd.version market, Warn.noCompatible ext market]) := by
  have hscan : scanMarket specCheck md ext market engine (l1 ++ (k, vd) :: l2)
      = (none, [Warn.noUrl ext vd.version market]) := by
    induction l1 with
    | nil =>
      obtain ⟨expr, he, hs⟩ := h2
      rw [List.nil_append]
      simp only [scanMarket, he, hs, h3]
    | cons p rest ih =>
      rw [List.cons_append]
      rw [scanMarket_skip (h1 p (List.mem_cons_self _ _)) _]
      exact ih (fun q hq => h1 q (List.mem_cons_of_mem _ hq))
  unfold processMarket
  rw [hscan]
  rfl

/-- Witness for C7 at a concrete input: catalog `mdNoUrl`, market
`cursor` with engine `1`; the newest record `2.0.0` matches but has no
URL, and no selection is produced. -/
theorem no_url_abandons_market_witness :
    processMarket specCheckC mdNoUrl "pub.ext" "cursor" 1
      ([] ++ (2, ⟨"2.0.0", [⟨engKey, "compat-all"⟩], []⟩) :: [(1, ⟨"1.0.0", [⟨engKey, "compat-all"⟩], []⟩)])
      = (none, [Warn.noUrl "pub.ext" "2.0.0" "cursor", Warn.noCompatible "pub.ext" "cursor"]) :=
  no_url_abandons_market specCheckC mdNoUrl "pub.ext" "cursor" 1
    [] [(1, ⟨"1.0.0", [⟨engKey, "compat-all"⟩], []⟩)] 2
    ⟨"2.0.0", [⟨engKey, "compat-all"⟩], []⟩
    (by intro p hp; cases hp) ⟨"compat-all", rfl, rfl⟩ (by rfl)

/-! ### Claim theorems: error handling -/

/-- C4 (amended): a version record whose engine-range expression fails
to parse is treated as matching nothing — it is never selected and the
scan continues with the remaining records unchanged — but nothing is
logged for it: the `except ValueError` handler is a bare `continue`,
so the scan result (selection and warnings alike) is literally that of
the remaining records. -/
theorem malformed_range_skipped_silently {V : Type}
    (specCheck : String → V → Option Bool) (md : Metadata) (ext market : String)
    (engine : V) (k : V) (vd : VersionData) (rest : List (V × VersionData))
    (expr : String) (h1 : engineProp vd = some expr)
    (h2 : specCheck expr engine = none) :
    scanMarket specCheck md ext market engine ((k, vd) :: rest)
      = scanMarket specCheck md ext market engine rest := by
  simp only [scanMarket, h1, h2]

/-- Witness for the amended C4 at a concrete input: the newest record
of `mdMalformedNewest` declares the malformed range `"bogus"` and is
skipped. -/
theorem malformed_range_skipped_silently_witness :
    scanMarket specCheckC mdMalformedNewest "pub.ext" "cursor" 1
      ((2, ⟨"2.0.0", [⟨engKey, "bogus"⟩], []⟩)
        :: [(1, ⟨"1.0.0", [⟨engKey, "compat-all"⟩], []⟩)])
      = scanMarket specCheckC mdMalformedNewest "pub.ext" "cursor" 1
          [(1, ⟨"1.0.0", [⟨engKey, "compat-all"⟩], []⟩)] :=
  malformed_range_skipped_silently specCheckC mdMalformedNewest "pub.ext" "cursor" 1 2
    ⟨"2.0.0", [⟨engKey, "bogus"⟩], []⟩
    [(1, ⟨"1.0.0", [⟨engKey, "compat-all"⟩], []⟩)] "bogus" (by rfl) (by rfl)

/-- C4 counterexample: running the selector on `mdMalformedNewest`
(newest record `2.0.0` with the malformed range expression `"bogus"`,
older record `1.0.0` compatible) selects `1.0.0` — so the malformed
record is treated as matching nothing and processing continues — but
the complete warning output of the run is `[]`: the malformed range is
never reported (logged), contradicting the claim. -/
theorem malformed_range_not_reported_counterexample :
    find_compatible_versions_for_extension verParseC specCheckC (some mdMalformedNewest)
      "pub.ext" [("cursor", 1)]
      = .ok ([("cursor", "1.0.0", msVsixUrl "pub" "ext" "1.0.0")], []) := rfl

/-- C8 counterexample: a download towards an absent destination that
fails mid-transfer (`resp.read()` raises after `urlopen` succeeded —
at which point `open(dest_path, "wb")` has already created the output
file) leaves a file at the destination, contradicting the claim that
no file, not even a partial or empty one, exists afterwards. -/
theorem download_failure_leaves_file_counterexample :
    download_vsix DlOutcome.failLate [] "pub.ext-2.0.0.vsix"
      = ⟨["pub.ext-2.0.0.vsix"], true, true⟩ := rfl

/-- C8 (amended): a failed download is logged and never propagates an
error (the run continues); the destination is left in its prior state
when the failure occurs while opening the connection, but when the
failure occurs after the output file has been opened an empty or
partial file exists at the previously absent destination. -/
theorem download_failure_behavior (o : DlOutcome) (dir : List String) (dest : String)
    (habs : dest ∉ dir) (hfail : o ≠ DlOutcome.ok) :
    (download_vsix o dir dest).failLogged = true ∧
    (o = DlOutcome.failConnect → (download_vsix o dir dest).dir = dir) ∧
    (o = DlOutcome.failLate → (download_vsix o dir dest).dir = dir ++ [dest]) := by
  unfold download_vsix
  rw [if_neg habs]
  cases o with
  | ok => exact absurd rfl hfail
  | failConnect => exact ⟨rfl, fun _ => rfl, fun h => absurd h (by decide)⟩
  | failLate => exact ⟨rfl, fun h => absurd h (by decide), fun _ => rfl⟩

/-- Witness for the amended C8 at a concrete input: a connection
failure towards an absent destination. -/
theorem download_failure_behavior_witness :
    (download_vsix DlOutcome.failConnect ["other.vsix"] "pub.ext-2.0.0.vsix").failLogged
        = true ∧
    (DlOutcome.failConnect = DlOutcome.failConnect →
      (download_vsix DlOutcome.failConnect ["other.vsix"] "pub.ext-2.0.0.vsix").dir
        = ["other.vsix"]) ∧
    (DlOutcome.failConnect = DlOutcome.failLate →
      (download_vsix DlOutcome.failConnect ["other.vsix"] "pub.ext-2.0.0.vsix").dir
        = ["other.vsix"] ++ ["pub.ext-2.0.0.vsix"]) :=
  download_failure_behavior DlOutcome.failConnect ["other.vsix"] "pub.ext-2.0.0.vsix"
    (by decide) (by decide)

/-- Deletion collaborator failing exactly on `a.vsix` in market `m1`. -/
def delOkFail : String → String → Bool := fun m f => !(m == "m1" && f == "a.vsix")

/-- C5 counterexample: a full `sync_markets` run (extension `x.y`
absent from the registry; two markets with stale `.vsix` files) in
which the `unlink` of `a.vsix` in market `m1` fails: the run aborts
with the uncaught error, `a.vsix` and its sibling `b.vsix` remain, and
market `m2`'s stale `c.vsix` is never cleaned — a deletion failure is
not reported-and-survived, it aborts the run, contradicting the
claim. -/
theorem deletion_failure_aborts_counterexample :
    sync_markets verParseC specCheckC (fun _ => none) (fun _ _ => DlOutcome.ok) delOkFail
      [("m1", 1), ("m2", 1)] ["x.y"]
      [("m1", ["a.vsix", "b.vsix"]), ("m2", ["c.vsix"])]
      = (⟨[("m1", ["a.vsix", "b.vsix"]), ("m2", ["c.vsix"])], [("m1", []), ("m2", [])], 0,
          [Warn.notFound "x.y"]⟩, 0, some "OSError: unlink failed: a.vsix") := rfl

/-- C5 (amended): a failure to delete a stale package file is an
uncaught `OSError`: the cleanup loop stops at the failing market with
the failing file (and everything after it) still present, and no later
market's cleanup is ever run. -/
theorem deletion_failure_aborts (delOk : String → String → Bool)
    (expected fs : List (String × List String)) (m : String) (rest : List String)
    (d : List String) (n : Nat) (err : String)
    (hc : cleanupDir (delOk m) (lookupD expected m) (lookupD fs m) = (d, n, some err)) :
    cleanupLoop delOk expected fs (m :: rest) = (updateA fs m d, n, some err) := by
  simp only [cleanupLoop, hc]

/-- Witness for the amended C5 at a concrete input. -/
theorem deletion_failure_aborts_witness :
    cleanupLoop delOkFail [("m1", []), ("m2", [])]
      [("m1", ["a.vsix", "b.vsix"]), ("m2", ["c.vsix"])] ["m1", "m2"]
      = (updateA [("m1", ["a.vsix", "b.vsix"]), ("m2", ["c.vsix"])] "m1"
          ["a.vsix", "b.vsix"], 0, some "OSError: unlink failed: a.vsix") :=
  deletion_failure_aborts delOkFail [("m1", []), ("m2", [])]
    [("m1", ["a.vsix", "b.vsix"]), ("m2", ["c.vsix"])] "m1" ["m2"]
    ["a.vsix", "b.vsix"] 0 "OSError: unlink failed: a.vsix" (by rfl)

/-- C6 counterexample: with extension `a.bad` whose metadata contains
the unparseable version string `"garbage"` and `b.good` (well-formed)
after it in the sync list, the orchestrator does not warn-and-continue:
it aborts with the uncaught `ValueError` — no warning is recorded
(`warns = []`) and `b.good` is never processed (nothing expected,
nothing downloaded), contradicting the claim that the orchestrator
never aborts because of one extension. -/
theorem resolve_exception_aborts_counterexample :
    sync_markets verParseC specCheckC regMixed (fun _ _ => DlOutcome.ok) (fun _ _ => true)
      [("cursor", 1)] ["a.bad", "b.good"] []
      = (⟨[("cursor", [])], [("cursor", [])], 0, []⟩, 0,
         some "ValueError: invalid version string in a.bad") := rfl

/-- C6 (amended): the resolution failures the source actually handles —
extension absent from the registry or fetch error (the fetch helper
returns `None` for both) and metadata with zero version entries — are
recorded as a warning, the extension contributes nothing to any
market's state and the loop continues with the remaining extensions
from an otherwise unchanged state.  (An unparseable version string in
the metadata is instead an uncaught exception; see the
counterexample.) -/
theorem resolve_failure_isolated {V : Type} [LinearOrder V]
    (verParse : String → Option V) (specCheck : String → V → Option Bool)
    (registry : String → Option Metadata) (dl : String → String → DlOutcome)
    (targets : List (String × V)) (e : String) (rest : List String) (st : SyncState)
    (h : registry e = none ∨ ∃ md, registry e = some md ∧ md.versions = []) :
    ∃ w, (w = Warn.notFound e ∨ w = Warn.noVersions e) ∧
      extLoop verParse specCheck registry dl targets (e :: rest) st
        = extLoop verParse specCheck registry dl targets rest
            { st with warns := st.warns ++ [w] } := by
  rcases h with h | ⟨md, hmd, hv⟩
  · refine ⟨Warn.notFound e, Or.inl rfl, ?_⟩
    simp only [extLoop, h, find_compatible_versions_for_extension]
    rfl
  · refine ⟨Warn.noVersions e, Or.inr rfl, ?_⟩
    simp only [extLoop, hmd, find_compatible_versions_for_extension, hv, List.isEmpty_nil,
      if_true]
    rfl

/-- Witness for the amended C6 at a concrete input: an extension
absent from the registry. -/
theorem resolve_failure_isolated_witness :
    ∃ w, (w = Warn.notFound "x.y" ∨ w = Warn.noVersions "x.y") ∧
      extLoop verParseC specCheckC (fun _ => none) (fun _ _ => DlOutcome.ok) [("cursor", 1)]
        ("x.y" :: []) ⟨[("cursor", [])], [("cursor", [])], 0, []⟩
        = extLoop verParseC specCheckC (fun _ => none) (fun _ _ => DlOutcome.ok) [("cursor", 1)]
            [] { (⟨[("cursor", [])], [("cursor", [])], 0, []⟩ : SyncState) with
                 warns := SyncState.warns ⟨[("cursor", [])], [("cursor", [])], 0, []⟩ ++ [w] } :=
  resolve_failure_isolated verParseC specCheckC (fun _ => none)
    (fun _ _ => DlOutcome.ok) [("cursor", 1)] "x.y" []
    ⟨[("cursor", [])], [("cursor", [])], 0, []⟩ (Or.inl rfl)

/-! ### Claim theorems: identifier normalization -/

/-- C9: extension identifiers are case-insensitive: two configured
identifiers that agree after lowercasing are normalized to the same
id, deduplicated into a single sync-list entry (synced as one
extension — so the same id is passed to the registry fetch, resolving
to the same catalog entry), and produce the same output filename in
every market. -/
theorem extension_ids_case_insensitive (a b v : String) (h : lowerId a = lowerId b) :
    get_extensions_to_sync [a, b] [] = [lowerId a] ∧
    get_extensions_to_sync [b] [] = get_extensions_to_sync [a] [] ∧
    mkVsixFilename (lowerId a) v = mkVsixFilename (lowerId b) v := by
  refine ⟨?_, ?_, ?_⟩
  · simp only [get_extensions_to_sync, List.isEmpty_cons, List.map_cons, List.map_nil,
      Bool.false_eq_true, if_false]
    rw [h]
    rw [List.dedup_cons_of_mem (List.mem_singleton.mpr rfl)]
    rw [List.dedup_cons_of_not_mem (List.not_mem_nil _), List.dedup_nil,
      List.mergeSort_singleton]
  · simp only [get_extensions_to_sync, List.isEmpty_cons, List.map_cons, List.map_nil,
      Bool.false_eq_true, if_false]
    rw [h]
  · rw [h]

/-- Witness for C9 at the spec's concrete example pair. -/
theorem extension_ids_case_insensitive_witness :
    get_extensions_to_sync ["Foo.Bar", "foo.bar"] [] = [lowerId "Foo.Bar"] ∧
    get_extensions_to_sync ["foo.bar"] [] = get_extensions_to_sync ["Foo.Bar"] [] ∧
    mkVsixFilename (lowerId "Foo.Bar") "1.0.0" = mkVsixFilename (lowerId "foo.bar") "1.0.0" :=
  extension_ids_case_insensitive "Foo.Bar" "foo.bar" "1.0.0" (by decide)

/-! ### Pure mirrors of the extension loop (proof scaffolding)

`extLoop` threads one mutable `SyncState`; the following functions
compute its four components (and the abort point) separately, and
`extLoop_eq` proves the decomposition. -/

/-- Directory contents and download count after applying one
extension's selections (mirror of the fs/download part of
`applySelections`). -/
def fsApply (dl : String → String → DlOutcome) (ext : String) :
    List (String × String × String) → List (String × List String) →
    List (String × List String) × Nat
  | [], fs => (fs, 0)
  | (m, v, _) :: rest, fs =>
    let fname := mkVsixFilename ext v
    let r := download_vsix (dl m fname) (lookupD fs m) fname
    let t := fsApply dl ext rest (updateA fs m r.dir)
    (t.1, (if r.attempted then 1 else 0) + t.2)

/-- Expected-set contents after applying one extension's selections
(mirror of the expected part of `applySelections`). -/
def expApply (ext : String) :
    List (String × String × String) → List (String × List String) →
    List (String × List String)
  | [], exp => exp
  | (m, v, _) :: rest, exp =>
    expApply ext rest (updateA exp m (addIfAbsent (lookupD exp m) (mkVsixFilename ext v)))

theorem applySelections_warns (dl : String → String → DlOutcome) (ext : String) :
    ∀ (pm : List (String × String × String)) (st : SyncState),
      (applySelections dl ext pm st).warns = st.warns := by
  intro pm
  induction pm with
  | nil => intro st; rfl
  | cons q rest ih =>
    intro st
    obtain ⟨m, v, u⟩ := q
    simp only [applySelections]
    rw [ih]

theorem applySelections_expected (dl : String → String → DlOutcome) (ext : String) :
    ∀ (pm : List (String × String × String)) (st : SyncState),
      (applySelections dl ext pm st).expected = expApply ext pm st.expected := by
  intro pm
  induction pm with
  | nil => intro st; rfl
  | cons q rest ih =>
    intro st
    obtain ⟨m, v, u⟩ := q
    simp only [applySelections, expApply]
    rw [ih]

theorem applySelections_fs (dl : String → String → DlOutcome) (ext : String) :
    ∀ (pm : List (String × String × String)) (st : SyncState),
      (applySelections dl ext pm st).fs = (fsApply dl ext pm st.fs).1 := by
  intro pm
  induction pm with
  | nil => intro st; rfl
  | cons q rest ih =>
    intro st
    obtain ⟨m, v, u⟩ := q
    simp only [applySelections, fsApply]
    rw [ih]

theorem applySelections_downloads (dl : String → String → DlOutcome) (ext : String) :
    ∀ (pm : List (String × String × String)) (st : SyncState),
      (applySelections dl ext pm st).downloads
        = st.downloads + (fsApply dl ext pm st.fs).2 := by
  intro pm
  induction pm with
  | nil => intro st; rfl
  | cons q rest ih =>
    intro st
    obtain ⟨m, v, u⟩ := q
    simp only [applySelections, fsApply]
    rw [ih]
    simp only [Nat.add_assoc]

/-- The abort point of the extension loop: the error of the first
extension whose resolution raises, if any. -/
def errOf {V : Type} [LinearOrder V] (verParse : String → Option V)
    (specCheck : String → V → Option Bool) (registry : String → Option Metadata)
    (targets : List (String × V)) : List String → Option String
  | [] => none
  | e :: rest =>
    match find_compatible_versions_for_extension verParse specCheck (registry e) e targets with
    | .error msg => some msg
    | .ok _ => errOf verParse specCheck registry targets rest

/-- The warnings produced by the extension loop (up to its abort
point). -/
def warnsOf {V : Type} [LinearOrder V] (verParse : String → Option V)
    (specCheck : String → V → Option Bool) (registry : String → Option Metadata)
    (targets : List (String × V)) : List String → List Warn
  | [] => []
  | e :: rest =>
    match find_compatible_versions_for_extension verParse specCheck (registry e) e targets with
    | .error _ => []
    | .ok (_, ws) => ws ++ warnsOf verParse specCheck registry targets rest

/-- The expected sets accumulated by the extension loop. -/
def expOf {V : Type} [LinearOrder V] (verParse : String → Option V)
    (specCheck : String → V → Option Bool) (registry : String → Option Metadata)
    (targets : List (String × V)) :
    List String → List (String × List String) → List (String × List String)
  | [], exp => exp
  | e :: rest, exp =>
    match find_compatible_versions_for_extension verParse specCheck (registry e) e targets with
    | .error _ => exp
    | .ok (pm, _) => expOf verParse specCheck registry targets rest (expApply e pm exp)

/-- The directory contents and download count produced by the
extension loop. -/
def fsOf {V : Type} [LinearOrder V] (verParse : String → Option V)
    (specCheck : String → V → Option Bool) (registry : String → Option Metadata)
    (dl : String → String → DlOutcome) (targets : List (String × V)) :
    List String → List (String × List String) → List (String × List String) × Nat
  | [], fs => (fs, 0)
  | e :: rest, fs =>
    match find_compatible_versions_for_extension verParse specCheck (registry e) e targets with
    | .error _ => (fs, 0)
    | .ok (pm, _) =>
      let r := fsApply dl e pm fs
      let t := fsOf verParse specCheck registry dl targets rest r.1
      (t.1, r.2 + t.2)

/-- All `(market, filename)` selection events of the extension loop,
in order, up to its abort point. -/
def selEvents {V : Type} [LinearOrder V] (verParse : String → Option V)
    (specCheck : String → V → Option Bool) (registry : String → Option Metadata)
    (targets : List (String × V)) : List String → List (String × String)
  | [] => []
  | e :: rest =>
    match find_compatible_versions_for_extension verParse specCheck (registry e) e targets with
    | .error _ => []
    | .ok (pm, _) =>
      pm.map (fun t => (t.1, mkVsixFilename e t.2.1))
        ++ selEvents verParse specCheck registry targets rest

/-- Decomposition of `extLoop` into its pure mirrors. -/
theorem extLoop_eq {V : Type} [LinearOrder V] (verParse : String → Option V)
    (specCheck : String → V → Option Bool) (registry : String → Option Metadata)
    (dl : String → String → DlOutcome) (targets : List (String × V)) :
    ∀ (exts : List String) (st : SyncState),
      extLoop verParse specCheck registry dl targets exts st
        = (⟨(fsOf verParse specCheck registry dl targets exts st.fs).1,
            expOf verParse specCheck registry targets exts st.expected,
            st.downloads + (fsOf verParse specCheck registry dl targets exts st.fs).2,
            st.warns ++ warnsOf verParse specCheck registry targets exts⟩,
           errOf verParse specCheck registry targets exts) := by
  intro exts
  induction exts with
  | nil =>
    intro st
    simp only [extLoop, fsOf, expOf, warnsOf, errOf, Nat.add_zero, List.append_nil]
  | cons e rest ih =>
    intro st
    cases hfc : find_compatible_versions_for_extension verParse specCheck (registry e) e
        targets with
    | error msg =>
      simp only [extLoop, fsOf, expOf, warnsOf, errOf, hfc, Nat.add_zero, List.append_nil]
    | ok pmws =>
      obtain ⟨pm, ws⟩ := pmws
      simp only [extLoop, fsOf, expOf, warnsOf, errOf, hfc]
      rw [ih]
      have hw := applySelections_warns dl e pm
        { st with warns := st.warns ++ ws }
      have hx := applySelections_expected dl e pm
        { st with warns := st.warns ++ ws }
      have hf := applySelections_fs dl e pm
        { st with warns := st.warns ++ ws }
      have hd := applySelections_downloads dl e pm
        { st with warns := st.warns ++ ws }
      rw [hw, hx, hf, hd]
      simp only [Prod.mk.injEq, SyncState.mk.injEq, Nat.add_assoc, List.append_assoc,
        and_self, true_and, and_true]

/-! ### Download-phase lemmas -/

theorem download_vsix_superset {o : DlOutcome} {dir : List String} {dest x : String}
    (h : x ∈ dir) : x ∈ (download_vsix o dir dest).dir := by
  unfold download_vsix
  by_cases hd : dest ∈ dir
  · rw [if_pos hd]; exact h
  · rw [if_neg hd]
    cases o <;> simp [List.mem_append, h]

theorem download_vsix_dest_ok (dir : List String) (dest : String) :
    dest ∈ (download_vsix DlOutcome.ok dir dest).dir := by
  unfold download_vsix
  by_cases hd : dest ∈ dir
  · rw [if_pos hd]; exact hd
  · rw [if_neg hd]; simp

theorem download_vsix_skip {dir : List String} {dest : String} (h : dest ∈ dir)
    (o : DlOutcome) : download_vsix o dir dest = ⟨dir, false, false⟩ := by
  unfold download_vsix
  rw [if_pos h]

theorem fsApply_hasKey (dl : String → String → DlOutcome) (ext : String) :
    ∀ (pm : List (String × String × String)) (fs : List (String × List String)) (m : String),
      hasKey (fsApply dl ext pm fs).1 m = hasKey fs m := by
  intro pm
  induction pm with
  | nil => intro fs m; rfl
  | cons q rest ih =>
    intro fs m
    obtain ⟨mq, v, u⟩ := q
    simp only [fsApply]
    rw [ih, hasKey_updateA]

theorem fsApply_mono (dl : String → String → DlOutcome) (ext : String) :
    ∀ (pm : List (String × String × String)) (fs : List (String × List String))
      (m f : String), f ∈ lookupD fs m → f ∈ lookupD (fsApply dl ext pm fs).1 m := by
  intro pm
  induction pm with
  | nil => intro fs m f h; exact h
  | cons q rest ih =>
    intro fs m f h
    obtain ⟨mq, v, u⟩ := q
    simp only [fsApply]
    apply ih
    by_cases hm : m = mq
    · subst hm
      by_cases hk : hasKey fs m
      · rw [lookupD_updateA_pos hk]
        exact download_vsix_superset h
      · rw [updateA_absent (by simpa using hk)]
        exact h
    · rw [lookupD_updateA_ne hm]
      exact h

theorem fsApply_covers (dl : String → String → DlOutcome) (ext : String)
    (hdl : ∀ m f, dl m f = DlOutcome.ok) :
    ∀ (pm : List (String × String × String)) (fs : List (String × List String)),
      (∀ q ∈ pm, hasKey fs q.1 = true) →
      ∀ q ∈ pm, mkVsixFilename ext q.2.1 ∈ lookupD (fsApply dl ext pm fs).1 q.1 := by
  intro pm
  induction pm with
  | nil => intro fs _ q hq; cases hq
  | cons q0 rest ih =>
    intro fs hkeys q hq
    obtain ⟨mq, v, u⟩ := q0
    simp only [fsApply]
    rcases List.mem_cons.mp hq with h1 | h1
    · subst h1
      apply fsApply_mono
      rw [lookupD_updateA_pos (hkeys _ (List.mem_cons_self _ _))]
      rw [hdl mq (mkVsixFilename ext v)]
      exact download_vsix_dest_ok _ _
    · refine ih _ (fun q' hq' => ?_) q h1
      rw [hasKey_updateA]
      exact hkeys q' (List.mem_cons_of_mem _ hq')

theorem fsApply_all_present (dl : String → String → DlOutcome) (ext : String) :
    ∀ (pm : List (String × String × String)) (fs : List (String × List String)),
      (∀ q ∈ pm, mkVsixFilename ext q.2.1 ∈ lookupD fs q.1) →
      fsApply dl ext pm fs = (fs, 0) := by
  intro pm
  induction pm with
  | nil => intro fs _; rfl
  | cons q0 rest ih =>
    intro fs h
    obtain ⟨mq, v, u⟩ := q0
    simp only [fsApply]
    rw [download_vsix_skip (h _ (List.mem_cons_self _ _)) (dl mq (mkVsixFilename ext v))]
    rw [updateA_self]
    rw [ih fs (fun q hq => h q (List.mem_cons_of_mem _ hq))]
    simp

theorem fsOf_hasKey {V : Type} [LinearOrder V] (verParse : String → Option V)
    (specCheck : String → V → Option Bool) (registry : String → Option Metadata)
    (dl : String → String → DlOutcome) (targets : List (String × V)) :
    ∀ (exts : List String) (fs : List (String × List String)) (m : String),
      hasKey (fsOf verParse specCheck registry dl targets exts fs).1 m = hasKey fs m := by
  intro exts
  induction exts with
  | nil => intro fs m; rfl
  | cons e rest ih =>
    intro fs m
    cases hfc : find_compatible_versions_for_extension verParse specCheck (registry e) e
        targets with
    | error msg => simp only [fsOf, hfc]
    | ok pmws =>
      obtain ⟨pm, ws⟩ := pmws
      simp only [fsOf, hfc]
      rw [ih, fsApply_hasKey]

theorem fsOf_mono {V : Type} [LinearOrder V] (verParse : String → Option V)
    (specCheck : String → V → Option Bool) (registry : String → Option Metadata)
    (dl : String → String → DlOutcome) (targets : List (String × V)) :
    ∀ (exts : List String) (fs : List (String × List String)) (m f : String),
      f ∈ lookupD fs m →
      f ∈ lookupD (fsOf verParse specCheck registry dl targets exts fs).1 m := by
  intro exts
  induction exts with
  | nil => intro fs m f h; exact h
  | cons e rest ih =>
    intro fs m f h
    cases hfc : find_compatible_versions_for_extension verParse specCheck (registry e) e
        targets with
    | error msg => simp only [fsOf, hfc]; exact h
    | ok pmws =>
      obtain ⟨pm, ws⟩ := pmws
      simp only [fsOf, hfc]
      exact ih _ _ _ (fsApply_mono dl e pm fs m f h)

theorem find_compat_ok_markets {V : Type} [LinearOrder V]
    {verParse : String → Option V} {specCheck : String → V → Option Bool}
    {mdOpt : Option Metadata} {e : String} {targets : List (String × V)}
    {pm : List (String × String × String)} {ws : List Warn}
    (h : find_compatible_versions_for_extension verParse specCheck mdOpt e targets
      = .ok (pm, ws)) :
    ∀ q ∈ pm, q.1 ∈ targets.map Prod.fst := by
  intro q hq
  obtain ⟨m, v, u⟩ := q
  cases mdOpt with
  | none =>
    simp only [find_compatible_versions_for_extension, Except.ok.injEq, Prod.mk.injEq] at h
    rw [← h.1] at hq
    cases hq
  | some md =>
    simp only [find_compatible_versions_for_extension] at h
    by_cases hemp : md.versions.isEmpty
    · rw [if_pos hemp] at h
      simp only [Except.ok.injEq, Prod.mk.injEq] at h
      rw [← h.1] at hq
      cases hq
    · rw [if_neg hemp] at h
      cases hkv : keyVersions verParse md.versions with
      | none => rw [hkv] at h; cases h
      | some keyed =>
        rw [hkv] at h
        simp only [Except.ok.injEq] at h
        have hq2 : (m, v, u) ∈ (perMarketLoop specCheck md e (sortDesc keyed) targets).1 := by
          rw [h]
          exact hq
        obtain ⟨eng, hmem, _⟩ := perMarketLoop_mem hq2
        exact List.mem_map_of_mem Prod.fst hmem

theorem selEvents_markets {V : Type} [LinearOrder V] (verParse : String → Option V)
    (specCheck : String → V → Option Bool) (registry : String → Option Metadata)
    (targets : List (String × V)) :
    ∀ (exts : List String) (q : String × String),
      q ∈ selEvents verParse specCheck registry targets exts →
      q.1 ∈ targets.map Prod.fst := by
  intro exts
  induction exts with
  | nil => intro q hq; cases hq
  | cons e rest ih =>
    intro q hq
    cases hfc : find_compatible_versions_for_extension verParse specCheck (registry e) e
        targets with
    | error msg => rw [selEvents, hfc] at hq; cases hq
    | ok pmws =>
      obtain ⟨pm, ws⟩ := pmws
      rw [selEvents, hfc] at hq
      rcases List.mem_append.mp hq with h1 | h1
      · obtain ⟨t, ht, hqe⟩ := List.mem_map.mp h1
        have := find_compat_ok_markets hfc t ht
        rw [← hqe]
        exact this
      · exact ih q h1

theorem fsOf_all_present {V : Type} [LinearOrder V] (verParse : String → Option V)
    (specCheck : String → V → Option Bool) (registry : String → Option Metadata)
    (dl : String → String → DlOutcome) (targets : List (String × V)) :
    ∀ (exts : List String) (fs : List (String × List String)),
      (∀ q ∈ selEvents verParse specCheck registry targets exts, q.2 ∈ lookupD fs q.1) →
      fsOf verParse specCheck registry dl targets exts fs = (fs, 0) := by
  intro exts
  induction exts with
  | nil => intro fs _; rfl
  | cons e rest ih =>
    intro fs h
    cases hfc : find_compatible_versions_for_extension verParse specCheck (registry e) e
        targets with
    | error msg => simp only [fsOf, hfc]
    | ok pmws =>
      obtain ⟨pm, ws⟩ := pmws
      simp only [fsOf, hfc]
      have hap : fsApply dl e pm fs = (fs, 0) := by
        apply fsApply_all_present
        intro q hq
        have := h (q.1, mkVsixFilename e q.2.1) (by
          rw [selEvents, hfc]
          exact List.mem_append_left _ (List.mem_map_of_mem _ hq))
        exact this
      rw [hap]
      rw [ih fs (fun q hq => h q (by
        rw [selEvents, hfc]
        exact List.mem_append_right _ hq))]
      rfl

theorem fsOf_covers {V : Type} [LinearOrder V] (verParse : String → Option V)
    (specCheck : String → V → Option Bool) (registry : String → Option Metadata)
    (dl : String → String → DlOutcome) (targets : List (String × V))
    (hdl : ∀ m f, dl m f = DlOutcome.ok) :
    ∀ (exts : List String) (fs : List (String × List String)),
      (∀ q ∈ selEvents verParse specCheck registry targets exts, hasKey fs q.1 = true) →
      ∀ q ∈ selEvents verParse specCheck registry targets exts,
        q.2 ∈ lookupD (fsOf verParse specCheck registry dl targets exts fs).1 q.1 := by
  intro exts
  induction exts with
  | nil => intro fs _ q hq; cases hq
  | cons e rest ih =>
    intro fs hkeys q hq
    cases hfc : find_compatible_versions_for_extension verParse specCheck (registry e) e
        targets with
    | error msg => rw [selEvents, hfc] at hq; cases hq
    | ok pmws =>
      obtain ⟨pm, ws⟩ := pmws
      rw [selEvents, hfc] at hq
      simp only [fsOf, hfc]
      rcases List.mem_append.mp hq with h1 | h1
      · obtain ⟨t, ht, hqe⟩ := List.mem_map.mp h1
        have hc := fsApply_covers dl e hdl pm fs (fun q' hq' => by
          refine hkeys (q'.1, mkVsixFilename e q'.2.1) ?_
          rw [selEvents, hfc]
          exact List.mem_append_left _ (List.mem_map_of_mem _ hq')) t ht
        have := fsOf_mono verParse specCheck registry dl targets rest
          ((fsApply dl e pm fs).1) t.1 (mkVsixFilename e t.2.1) hc
        rw [← hqe]
        exact this
      · refine ih _ (fun q' hq' => ?_) q h1
        rw [fsApply_hasKey]
        refine hkeys q' ?_
        rw [selEvents, hfc]
        exact List.mem_append_right _ hq'

/-! ### Expected-set lemmas -/

theorem expApply_hasKey (ext : String) :
    ∀ (pm : List (String × String × String)) (exp : List (String × List String)) (m : String),
      hasKey (expApply ext pm exp) m = hasKey exp m := by
  intro pm
  induction pm with
  | nil => intro exp m; rfl
  | cons q rest ih =>
    intro exp m
    obtain ⟨mq, v, u⟩ := q
    simp only [expApply]
    rw [ih, hasKey_updateA]

theorem expApply_mono (ext : String) :
    ∀ (pm : List (String × String × String)) (exp : List (String × List String))
      (m f : String), f ∈ lookupD exp m → f ∈ lookupD (expApply ext pm exp) m := by
  intro pm
  induction pm with
  | nil => intro exp m f h; exact h
  | cons q rest ih =>
    intro exp m f h
    obtain ⟨mq, v, u⟩ := q
    simp only [expApply]
    apply ih
    by_cases hm : m = mq
    · subst hm
      by_cases hk : hasKey exp m
      · rw [lookupD_updateA_pos hk]
        exact mem_addIfAbsent_of_mem _ h
      · rw [updateA_absent (by simpa using hk)]
        exact h
    · rw [lookupD_updateA_ne hm]
      exact h

theorem expApply_covers (ext : String) :
    ∀ (pm : List (String × String × String)) (exp : List (String × List String)),
      (∀ q ∈ pm, hasKey exp q.1 = true) →
      ∀ q ∈ pm, mkVsixFilename ext q.2.1 ∈ lookupD (expApply ext pm exp) q.1 := by
  intro pm
  induction pm with
  | nil => intro exp _ q hq; cases hq
  | cons q0 rest ih =>
    intro exp hkeys q hq
    obtain ⟨mq, v, u⟩ := q0
    simp only [expApply]
    rcases List.mem_cons.mp hq with h1 | h1
    · subst h1
      apply expApply_mono
      rw [lookupD_updateA_pos (hkeys _ (List.mem_cons_self _ _))]
      exact self_mem_addIfAbsent _ _
    · refine ih _ (fun q' hq' => ?_) q h1
      rw [hasKey_updateA]
      exact hkeys q' (List.mem_cons_of_mem _ hq')

theorem expApply_mem (ext : String) :
    ∀ (pm : List (String × String × String)) (exp : List (String × List String))
      (m f : String), f ∈ lookupD (expApply ext pm exp) m →
      f ∈ lookupD exp m ∨ (m, f) ∈ pm.map (fun t => (t.1, mkVsixFilename ext t.2.1)) := by
  intro pm
  induction pm with
  | nil => intro exp m f h; exact Or.inl h
  | cons q0 rest ih =>
    intro exp m f h
    obtain ⟨mq, v, u⟩ := q0
    simp only [expApply] at h
    rcases ih _ m f h with h1 | h1
    · by_cases hm : m = mq
      · subst hm
        by_cases hk : hasKey exp m
        · rw [lookupD_updateA_pos hk] at h1
          rcases mem_addIfAbsent h1 with h2 | h2
          · exact Or.inl h2
          · subst h2
            exact Or.inr (List.mem_cons_self _ _)
        · rw [updateA_absent (by simpa using hk)] at h1
          exact Or.inl h1
      · rw [lookupD_updateA_ne hm] at h1
        exact Or.inl h1
    · exact Or.inr (List.mem_cons_of_mem _ h1)

theorem expOf_hasKey {V : Type} [LinearOrder V] (verParse : String → Option V)
    (specCheck : String → V → Option Bool) (registry : String → Option Metadata)
    (targets : List (String × V)) :
    ∀ (exts : List String) (exp : List (String × List String)) (m : String),
      hasKey (expOf verParse specCheck registry targets exts exp) m = hasKey exp m := by
  intro exts
  induction exts with
  | nil => intro exp m; rfl
  | cons e rest ih =>
    intro exp m
    cases hfc : find_compatible_versions_for_extension verParse specCheck (registry e) e
        targets with
    | error msg => simp only [expOf, hfc]
    | ok pmws =>
      obtain ⟨pm, ws⟩ := pmws
      simp only [expOf, hfc]
      rw [ih, expApply_hasKey]

theorem expOf_mono {V : Type} [LinearOrder V] (verParse : String → Option V)
    (specCheck : String → V → Option Bool) (registry : String → Option Metadata)
    (targets : List (String × V)) :
    ∀ (exts : List String) (exp : List (String × List String)) (m f : String),
      f ∈ lookupD exp m →
      f ∈ lookupD (expOf verParse specCheck registry targets exts exp) m := by
  intro exts
  induction exts with
  | nil => intro exp m f h; exact h
  | cons e rest ih =>
    intro exp m f h
    cases hfc : find_compatible_versions_for_extension verParse specCheck (registry e) e
        targets with
    | error msg => simp only [expOf, hfc]; exact h
    | ok pmws =>
      obtain ⟨pm, ws⟩ := pmws
      simp only [expOf, hfc]
      exact ih _ _ _ (expApply_mono e pm exp m f h)

theorem expOf_covers {V : Type} [LinearOrder V] (verParse : String → Option V)
    (specCheck : String → V → Option Bool) (registry : String → Option Metadata)
    (targets : List (String × V)) :
    ∀ (exts : List String) (exp : List (String × List String)),
      (∀ q ∈ selEvents verParse specCheck registry targets exts, hasKey exp q.1 = true) →
      ∀ q ∈ selEvents verParse specCheck registry targets exts,
        q.2 ∈ lookupD (expOf verParse specCheck registry targets exts exp) q.1 := by
  intro exts
  induction exts with
  | nil => intro exp _ q hq; cases hq
  | cons e rest ih =>
    intro exp hkeys q hq
    cases hfc : find_compatible_versions_for_extension verParse specCheck (registry e) e
        targets with
    | error msg => rw [selEvents, hfc] at hq; cases hq
    | ok pmws =>
      obtain ⟨pm, ws⟩ := pmws
      rw [selEvents, hfc] at hq
      simp only [expOf, hfc]
      rcases List.mem_append.mp hq with h1 | h1
      · obtain ⟨t, ht, hqe⟩ := List.mem_map.mp h1
        have hc := expApply_covers e pm exp (fun q' hq' => by
          refine hkeys (q'.1, mkVsixFilename e q'.2.1) ?_
          rw [selEvents, hfc]
          exact List.mem_append_left _ (List.mem_map_of_mem _ hq')) t ht
        have := expOf_mono verParse specCheck registry targets rest
          (expApply e pm exp) t.1 (mkVsixFilename e t.2.1) hc
        rw [← hqe]
        exact this
      · refine ih _ (fun q' hq' => ?_) q h1
        rw [expApply_hasKey]
        refine hkeys q' ?_
        rw [selEvents, hfc]
        exact List.mem_append_right _ hq'

theorem expOf_mem {V : Type} [LinearOrder V] (verParse : String → Option V)
    (specCheck : String → V → Option Bool) (registry : String → Option Metadata)
    (targets : List (String × V)) :
    ∀ (exts : List String) (exp : List (String × List String)) (m f : String),
      f ∈ lookupD (expOf verParse specCheck registry targets exts exp) m →
      f ∈ lookupD exp m ∨ (m, f) ∈ selEvents verParse specCheck registry targets exts := by
  intro exts
  induction exts with
  | nil => intro exp m f h; exact Or.inl h
  | cons e rest ih =>
    intro exp m f h
    cases hfc : find_compatible_versions_for_extension verParse specCheck (registry e) e
        targets with
    | error msg =>
      simp only [expOf, hfc] at h
      exact Or.inl h
    | ok pmws =>
      obtain ⟨pm, ws⟩ := pmws
      simp only [expOf, hfc] at h
      rcases ih _ m f h with h1 | h1
      · rcases expApply_mem e pm exp m f h1 with h2 | h2
        · exact Or.inl h2
        · refine Or.inr ?_
          rw [selEvents, hfc]
          exact List.mem_append_left _ h2
      · refine Or.inr ?_
        rw [selEvents, hfc]
        exact List.mem_append_right _ h1

/-! ### Cleanup-phase lemmas -/

theorem mkVsixFilename_hasExt (ext ver : String) :
    hasVsixExt (mkVsixFilename ext ver) = true := by
  unfold hasVsixExt mkVsixFilename
  rw [String.data_append, List.reverse_append]
  rw [List.isPrefixOf_iff_prefix]
  exact List.prefix_append _ _

theorem selEvents_vsix {V : Type} [LinearOrder V] (verParse : String → Option V)
    (specCheck : String → V → Option Bool) (registry : String → Option Metadata)
    (targets : List (String × V)) :
    ∀ (exts : List String) (q : String × String),
      q ∈ selEvents verParse specCheck registry targets exts → hasVsixExt q.2 = true := by
  intro exts
  induction exts with
  | nil => intro q hq; cases hq
  | cons e rest ih =>
    intro q hq
    cases hfc : find_compatible_versions_for_extension verParse specCheck (registry e) e
        targets with
    | error msg => rw [selEvents, hfc] at hq; cases hq
    | ok pmws =>
      obtain ⟨pm, ws⟩ := pmws
      rw [selEvents, hfc] at hq
      rcases List.mem_append.mp hq with h1 | h1
      · obtain ⟨t, _, hqe⟩ := List.mem_map.mp h1
        rw [← hqe]
        exact mkVsixFilename_hasExt _ _
      · exact ih q h1

theorem cleanupDir_success (delOk : String → Bool) (keep : List String)
    (hok : ∀ f, delOk f = true) :
    ∀ dir, ∃ n, cleanupDir delOk keep dir
      = (dir.filter (fun f => !(hasVsixExt f) || decide (f ∈ keep)), n, none) := by
  intro dir
  induction dir with
  | nil => exact ⟨0, rfl⟩
  | cons f rest ih =>
    obtain ⟨n, hn⟩ := ih
    by_cases hf : hasVsixExt f ∧ f ∉ keep
    · refine ⟨n + 1, ?_⟩
      have hp : (!(hasVsixExt f) || decide (f ∈ keep)) = false := by
        simp [hf.1, hf.2]
      simp only [cleanupDir, if_pos hf, hok f, if_true, hn, List.filter_cons, hp]
      simp
    · refine ⟨n, ?_⟩
      have hp : (!(hasVsixExt f) || decide (f ∈ keep)) = true := by
        by_cases h1 : hasVsixExt f
        · have h2 : f ∈ keep := by
            by_contra h3
            exact hf ⟨h1, h3⟩
          simp [h2]
        · simp [Bool.not_eq_true _ ▸ h1]
      simp only [cleanupDir, if_neg hf, hn, List.filter_cons, hp]
      simp

theorem cleanupDir_noop (delOk : String → Bool) (keep : List String) :
    ∀ dir, (∀ f ∈ dir, hasVsixExt f = true → f ∈ keep) →
      cleanupDir delOk keep dir = (dir, 0, none) := by
  intro dir
  induction dir with
  | nil => intro _; rfl
  | cons f rest ih =>
    intro h
    have hf : ¬(hasVsixExt f ∧ f ∉ keep) := by
      intro hand
      exact hand.2 (h f (List.mem_cons_self _ _) hand.1)
    simp only [cleanupDir, if_neg hf]
    rw [ih (fun g hg => h g (List.mem_cons_of_mem _ hg))]

theorem cleanupLoop_hasKey (delOk : String → String → Bool)
    (expected : List (String × List String)) :
    ∀ (M : List String) (fs : List (String × List String)) (m : String),
      hasKey (cleanupLoop delOk expected fs M).1 m = hasKey fs m := by
  intro M
  induction M with
  | nil => intro fs m; rfl
  | cons m0 rest ih =>
    intro fs m
    simp only [cleanupLoop]
    cases he : (cleanupDir (delOk m0) (lookupD expected m0) (lookupD fs m0)).2.2 with
    | some err => simp only [he, hasKey_updateA]
    | none =>
      simp only [he]
      rw [ih, hasKey_updateA]

theorem cleanupLoop_lookup_notmem (delOk : String → String → Bool)
    (expected : List (String × List String)) :
    ∀ (M : List String) (fs : List (String × List String)) (m : String),
      m ∉ M → lookupD (cleanupLoop delOk expected fs M).1 m = lookupD fs m := by
  intro M
  induction M with
  | nil => intro fs m _; rfl
  | cons m0 rest ih =>
    intro fs m hm
    have hne : ¬ m = m0 := fun h => hm (h ▸ List.mem_cons_self _ _)
    have hrest : m ∉ rest := fun h => hm (List.mem_cons_of_mem _ h)
    simp only [cleanupLoop]
    cases he : (cleanupDir (delOk m0) (lookupD expected m0) (lookupD fs m0)).2.2 with
    | some err => simp only [he, lookupD_updateA_ne hne]
    | none =>
      simp only [he]
      rw [ih _ _ hrest, lookupD_updateA_ne hne]

theorem cleanupLoop_success_lookup (delOk : String → String → Bool)
    (expected : List (String × List String)) (hok : ∀ m f, delOk m f = true) :
    ∀ (M : List String) (fs : List (String × List String)) (m : String),
      M.Nodup → (∀ m' ∈ M, hasKey fs m' = true) → m ∈ M →
      lookupD (cleanupLoop delOk expected fs M).1 m
        = (lookupD fs m).filter
            (fun f => !(hasVsixExt f) || decide (f ∈ lookupD expected m)) := by
  intro M
  induction M with
  | nil => intro fs m _ _ hm; cases hm
  | cons m0 rest ih =>
    intro fs m hnd hkeys hm
    rw [List.nodup_cons] at hnd
    obtain ⟨hm0, hnd2⟩ := hnd
    obtain ⟨n, hc⟩ := cleanupDir_success (delOk m0) (lookupD expected m0) (hok m0)
      (lookupD fs m0)
    simp only [cleanupLoop, hc]
    rcases List.mem_cons.mp hm with h1 | h1
    · subst h1
      rw [cleanupLoop_lookup_notmem delOk expected rest _ m hm0]
      rw [lookupD_updateA_pos (hkeys m (List.mem_cons_self _ _))]
    · have hne : ¬ m = m0 := fun h => hm0 (h ▸ h1)
      rw [ih _ m hnd2 (fun m' hm' => by
        rw [hasKey_updateA]
        exact hkeys m' (List.mem_cons_of_mem _ hm')) h1]
      rw [lookupD_updateA_ne hne]

theorem cleanupLoop_success_err (delOk : String → String → Bool)
    (expected : List (String × List String)) (hok : ∀ m f, delOk m f = true) :
    ∀ (M : List String) (fs : List (String × List String)),
      (cleanupLoop delOk expected fs M).2.2 = none := by
  intro M
  induction M with
  | nil => intro fs; rfl
  | cons m0 rest ih =>
    intro fs
    obtain ⟨n, hc⟩ := cleanupDir_success (delOk m0) (lookupD expected m0) (hok m0)
      (lookupD fs m0)
    simp only [cleanupLoop, hc]
    exact ih _

theorem cleanupLoop_noop (delOk : String → String → Bool)
    (expected : List (String × List String)) :
    ∀ (M : List String) (fs : List (String × List String)),
      (∀ m ∈ M, ∀ f ∈ lookupD fs m, hasVsixExt f = true → f ∈ lookupD expected m) →
      cleanupLoop delOk expected fs M = (fs, 0, none) := by
  intro M
  induction M with
  | nil => intro fs _; rfl
  | cons m0 rest ih =>
    intro fs h
    have hc := cleanupDir_noop (delOk m0) (lookupD expected m0) (lookupD fs m0)
      (h m0 (List.mem_cons_self _ _))
    simp only [cleanupLoop, hc, updateA_self]
    rw [ih fs (fun m hm => h m (List.mem_cons_of_mem _ hm))]
    rfl

/-! ### Sync-level characterization -/

theorem sync_markets_err_some {V : Type} [LinearOrder V] (verParse : String → Option V)
    (specCheck : String → V → Option Bool) (registry : String → Option Metadata)
    (dl : String → String → DlOutcome) (delOk : String → String → Bool)
    (targets : List (String × V)) (exts : List String)
    (fs0 : List (String × List String)) (msg : String)
    (herr : errOf verParse specCheck registry targets exts = some msg) :
    sync_markets verParse specCheck registry dl delOk targets exts fs0
      = (⟨(fsOf verParse specCheck registry dl targets exts
             (ensureDirs fs0 (targets.map (fun p => p.1)))).1,
          expOf verParse specCheck registry targets exts
            ((targets.map (fun p => p.1)).map (fun m => (m, []))),
          (fsOf verParse specCheck registry dl targets exts
             (ensureDirs fs0 (targets.map (fun p => p.1)))).2,
          warnsOf verParse specCheck registry targets exts⟩, 0, some msg) := by
  simp only [sync_markets]
  rw [extLoop_eq]
  simp only [herr, Nat.zero_add, List.nil_append]

theorem sync_markets_err_none {V : Type} [LinearOrder V] (verParse : String → Option V)
    (specCheck : String → V → Option Bool) (registry : String → Option Metadata)
    (dl : String → String → DlOutcome) (delOk : String → String → Bool)
    (targets : List (String × V)) (exts : List String)
    (fs0 : List (String × List String))
    (herr : errOf verParse specCheck registry targets exts = none) :
    sync_markets verParse specCheck registry dl delOk targets exts fs0
      = (⟨(cleanupLoop delOk
             (expOf verParse specCheck registry targets exts
               ((targets.map (fun p => p.1)).map (fun m => (m, []))))
             (fsOf verParse specCheck registry dl targets exts
                (ensureDirs fs0 (targets.map (fun p => p.1)))).1
             (targets.map (fun p => p.1))).1,
          expOf verParse specCheck registry targets exts
            ((targets.map (fun p => p.1)).map (fun m => (m, []))),
          (fsOf verParse specCheck registry dl targets exts
             (ensureDirs fs0 (targets.map (fun p => p.1)))).2,
          warnsOf verParse specCheck registry targets exts⟩,
         (cleanupLoop delOk
             (expOf verParse specCheck registry targets exts
               ((targets.map (fun p => p.1)).map (fun m => (m, []))))
             (fsOf verParse specCheck registry dl targets exts
                (ensureDirs fs0 (targets.map (fun p => p.1)))).1
             (targets.map (fun p => p.1))).2.1,
         (cleanupLoop delOk
             (expOf verParse specCheck registry targets exts
               ((targets.map (fun p => p.1)).map (fun m => (m, []))))
             (fsOf verParse specCheck registry dl targets exts
                (ensureDirs fs0 (targets.map (fun p => p.1)))).1
             (targets.map (fun p => p.1))).2.2) := by
  simp only [sync_markets]
  rw [extLoop_eq]
  simp only [herr, Nat.zero_add, List.nil_append]

/-- Shared reconciliation lemma: after a fully successful
`sync_markets` run, a market's `.vsix` files are exactly its expected
set. -/
theorem sync_vsix_iff {V : Type} [LinearOrder V] (verParse : String → Option V)
    (specCheck : String → V → Option Bool) (registry : String → Option Metadata)
    (dl : String → String → DlOutcome) (delOk : String → String → Bool)
    (targets : List (String × V)) (exts : List String)
    (fs0 : List (String × List String)) (st : SyncState) (dels : Nat)
    (hnd : (targets.map Prod.fst).Nodup)
    (hdl : ∀ m f, dl m f = DlOutcome.ok)
    (hdel : ∀ m f, delOk m f = true)
    (hr : sync_markets verParse specCheck registry dl delOk targets exts fs0
      = (st, dels, none))
    (m : String) (hm : m ∈ targets.map Prod.fst) (f : String) :
    (f ∈ lookupD st.fs m ∧ hasVsixExt f = true) ↔ f ∈ lookupD st.expected m := by
  cases herr : errOf verParse specCheck registry targets exts with
  | some msg =>
    rw [sync_markets_err_some verParse specCheck registry dl delOk targets exts fs0 msg
      herr] at hr
    simp at hr
  | none =>
    rw [sync_markets_err_none verParse specCheck registry dl delOk targets exts fs0
      herr] at hr
    rw [Prod.mk.injEq] at hr
    obtain ⟨hst, _⟩ := hr
    rw [← hst]
    have hkeysF : ∀ m' ∈ targets.map (fun p => p.1),
        hasKey (fsOf verParse specCheck registry dl targets exts
          (ensureDirs fs0 (targets.map (fun p => p.1)))).1 m' = true := by
      intro m' hm'
      rw [fsOf_hasKey]
      exact ensureDirs_hasKey fs0 hm'
    have hlook := cleanupLoop_success_lookup delOk
      (expOf verParse specCheck registry targets exts
        ((targets.map (fun p => p.1)).map (fun m => (m, [])))) hdel
      (targets.map (fun p => p.1))
      (fsOf verParse specCheck registry dl targets exts
        (ensureDirs fs0 (targets.map (fun p => p.1)))).1
      m hnd hkeysF hm
    constructor
    · intro hand
      obtain ⟨hmem, hvsix⟩ := hand
      simp only at hmem
      rw [hlook] at hmem
      obtain ⟨_, hpred⟩ := List.mem_filter.mp hmem
      rw [hvsix] at hpred
      simp only [Bool.not_true, Bool.false_or, decide_eq_true_eq] at hpred
      exact hpred
    · intro hexp
      simp only at hexp
      have hev : (m, f) ∈ selEvents verParse specCheck registry targets exts := by
        rcases expOf_mem verParse specCheck registry targets exts
          ((targets.map (fun p => p.1)).map (fun m => (m, []))) m f hexp with h1 | h1
        · rw [lookupD_map_nil] at h1
          cases h1
        · exact h1
      have hvsix : hasVsixExt f = true :=
        selEvents_vsix verParse specCheck registry targets exts (m, f) hev
      have hmemF : f ∈ lookupD (fsOf verParse specCheck registry dl targets exts
          (ensureDirs fs0 (targets.map (fun p => p.1)))).1 m := by
        refine fsOf_covers verParse specCheck registry dl targets hdl exts
          (ensureDirs fs0 (targets.map (fun p => p.1))) (fun q hq => ?_) (m, f) hev
        exact ensureDirs_hasKey fs0
          (selEvents_markets verParse specCheck registry targets exts q hq)
      refine ⟨?_, hvsix⟩
      simp only
      rw [hlook]
      refine List.mem_filter.mpr ⟨hmemF, ?_⟩
      rw [hvsix]
      simp only [Bool.not_true, Bool.false_or, decide_eq_true_eq]
      exact hexp

theorem hasKey_map_nil {M : List String} {m : String} (h : m ∈ M) :
    hasKey (M.map (fun m => (m, ([] : List String)))) m = true := by
  induction M with
  | nil => cases h
  | cons m0 rest ih =>
    rw [List.map_cons, hasKey_cons]
    rcases List.mem_cons.mp h with h1 | h1
    · subst h1
      simp
    · simp [ih h1]

/-- Registry serving only `b.good`. -/
def regGood : String → Option Metadata
  | "b.good" => some mdGood
  | _ => none

/-! ### Claim theorems: reconciliation -/

/-- C3: for every selected market, after a `sync_markets` pass in
which every download and every deletion succeeds (and which runs to
completion), the set of package files (names ending in `.vsix`)
present in that market's directory equals exactly the expected
filename set computed for that market during the pass. -/
theorem reconciliation_converges {V : Type} [LinearOrder V] (verParse : String → Option V)
    (specCheck : String → V → Option Bool) (registry : String → Option Metadata)
    (dl : String → String → DlOutcome) (delOk : String → String → Bool)
    (targets : List (String × V)) (exts : List String)
    (fs0 : List (String × List String)) (st : SyncState) (dels : Nat)
    (hnd : (targets.map Prod.fst).Nodup)
    (hdl : ∀ m f, dl m f = DlOutcome.ok)
    (hdel : ∀ m f, delOk m f = true)
    (hr : sync_markets verParse specCheck registry dl delOk targets exts fs0
      = (st, dels, none))
    (m : String) (hm : m ∈ targets.map Prod.fst) (f : String) :
    (f ∈ lookupD st.fs m ∧ hasVsixExt f = true) ↔ f ∈ lookupD st.expected m :=
  sync_vsix_iff verParse specCheck registry dl delOk targets exts fs0 st dels
    hnd hdl hdel hr m hm f

/-- Witness for C3 at a concrete run: one extension, one market, one
stale file and one foreign file; afterwards the directory's `.vsix`
set is exactly the expected set. -/
theorem reconciliation_converges_witness :
    ("b.good-1.0.0.vsix"
        ∈ lookupD (SyncState.fs ⟨[("cursor", ["notes.txt", "b.good-1.0.0.vsix"])],
            [("cursor", ["b.good-1.0.0.vsix"])], 1, []⟩) "cursor" ∧
      hasVsixExt "b.good-1.0.0.vsix" = true) ↔
    "b.good-1.0.0.vsix"
        ∈ lookupD (SyncState.expected ⟨[("cursor", ["notes.txt", "b.good-1.0.0.vsix"])],
            [("cursor", ["b.good-1.0.0.vsix"])], 1, []⟩) "cursor" :=
  reconciliation_converges verParseC specCheckC regGood (fun _ _ => DlOutcome.ok)
    (fun _ _ => true) [("cursor", 1)] ["b.good"]
    [("cursor", ["stale-0.1.0.vsix", "notes.txt"])]
    ⟨[("cursor", ["notes.txt", "b.good-1.0.0.vsix"])],
      [("cursor", ["b.good-1.0.0.vsix"])], 1, []⟩ 1
    (by decide) (fun _ _ => rfl) (fun _ _ => rfl) (by rfl) "cursor" (by decide)
    "b.good-1.0.0.vsix"

/-- C10: during cleanup, every file in a selected market's directory
whose name ends in `.vsix` and is not in that market's expected set is
deleted — including foreign files that do not follow the
`{extensionId}-{version}.vsix` convention: after a fully successful
pass no such file is present. -/
theorem foreign_vsix_removed {V : Type} [LinearOrder V] (verParse : String → Option V)
    (specCheck : String → V → Option Bool) (registry : String → Option Metadata)
    (dl : String → String → DlOutcome) (delOk : String → String → Bool)
    (targets : List (String × V)) (exts : List String)
    (fs0 : List (String × List String)) (st : SyncState) (dels : Nat)
    (hnd : (targets.map Prod.fst).Nodup)
    (hdl : ∀ m f, dl m f = DlOutcome.ok)
    (hdel : ∀ m f, delOk m f = true)
    (hr : sync_markets verParse specCheck registry dl delOk targets exts fs0
      = (st, dels, none))
    (m : String) (hm : m ∈ targets.map Prod.fst) (f : String)
    (hvsix : hasVsixExt f = true) (hnexp : f ∉ lookupD st.expected m) :
    f ∉ lookupD st.fs m :=
  fun hmem => hnexp
    ((sync_vsix_iff verParse specCheck registry dl delOk targets exts fs0 st dels
      hnd hdl hdel hr m hm f).mp ⟨hmem, hvsix⟩)

/-- Witness for C10 at a concrete run: the foreign file
`foreign-thing.vsix` (not following the naming convention) is gone
after the pass. -/
theorem foreign_vsix_removed_witness :
    "foreign-thing.vsix"
      ∉ lookupD (SyncState.fs ⟨[("cursor", ["notes.txt", "b.good-1.0.0.vsix"])],
          [("cursor", ["b.good-1.0.0.vsix"])], 1, []⟩) "cursor" :=
  foreign_vsix_removed verParseC specCheckC regGood (fun _ _ => DlOutcome.ok)
    (fun _ _ => true) [("cursor", 1)] ["b.good"]
    [("cursor", ["foreign-thing.vsix", "notes.txt"])]
    ⟨[("cursor", ["notes.txt", "b.good-1.0.0.vsix"])],
      [("cursor", ["b.good-1.0.0.vsix"])], 1, []⟩ 1
    (by decide) (fun _ _ => rfl) (fun _ _ => rfl) (by rfl) "cursor" (by decide)
    "foreign-thing.vsix" (by rfl) (by decide)

/-- C2: running the full sync twice in a row with unchanged registry
responses, unchanged market and extension lists and collaborators that
succeed performs zero download transfers and zero deletions on the
second run and leaves every market directory unchanged. -/
theorem sync_idempotent {V : Type} [LinearOrder V] (verParse : String → Option V)
    (specCheck : String → V → Option Bool) (registry : String → Option Metadata)
    (dl : String → String → DlOutcome) (delOk : String → String → Bool)
    (targets : List (String × V)) (exts : List String)
    (fs0 : List (String × List String)) (st1 st2 : SyncState) (d1 d2 : Nat)
    (e1 e2 : Option String)
    (hnd : (targets.map Prod.fst).Nodup)
    (hdl : ∀ m f, dl m f = DlOutcome.ok)
    (hdel : ∀ m f, delOk m f = true)
    (h1 : sync_markets verParse specCheck registry dl delOk targets exts fs0
      = (st1, d1, e1))
    (h2 : sync_markets verParse specCheck registry dl delOk targets exts st1.fs
      = (st2, d2, e2)) :
    st2.downloads = 0 ∧ d2 = 0 ∧ st2.fs = st1.fs := by
  have hevF : ∀ q ∈ selEvents verParse specCheck registry targets exts,
      q.2 ∈ lookupD (fsOf verParse specCheck registry dl targets exts
        (ensureDirs fs0 (targets.map (fun p => p.1)))).1 q.1 := by
    refine fsOf_covers verParse specCheck registry dl targets hdl exts
      (ensureDirs fs0 (targets.map (fun p => p.1))) (fun q hq => ?_)
    exact ensureDirs_hasKey fs0
      (selEvents_markets verParse specCheck registry targets exts q hq)
  cases herr : errOf verParse specCheck registry targets exts with
  | some msg =>
    rw [sync_markets_err_some verParse specCheck registry dl delOk targets exts fs0 msg
      herr] at h1
    simp only [Prod.mk.injEq] at h1
    obtain ⟨hst1, _⟩ := h1
    have hfs1 : st1.fs = (fsOf verParse specCheck registry dl targets exts
        (ensureDirs fs0 (targets.map (fun p => p.1)))).1 := by
      rw [← hst1]
    have hkeys1 : ∀ m ∈ targets.map (fun p => p.1), hasKey st1.fs m = true := by
      intro m hm
      rw [hfs1, fsOf_hasKey]
      exact ensureDirs_hasKey fs0 hm
    have hall : ∀ q ∈ selEvents verParse specCheck registry targets exts,
        q.2 ∈ lookupD st1.fs q.1 := by
      intro q hq
      rw [hfs1]
      exact hevF q hq
    rw [sync_markets_err_some verParse specCheck registry dl delOk targets exts st1.fs msg
      herr] at h2
    rw [ensureDirs_noop hkeys1] at h2
    rw [fsOf_all_present verParse specCheck registry dl targets exts st1.fs hall] at h2
    simp only [Prod.mk.injEq] at h2
    obtain ⟨hst2, hd2, _⟩ := h2
    refine ⟨?_, hd2.symm, ?_⟩
    · rw [← hst2]
    · rw [← hst2]
  | none =>
    rw [sync_markets_err_none verParse specCheck registry dl delOk targets exts fs0
      herr] at h1
    simp only [Prod.mk.injEq] at h1
    obtain ⟨hst1, _⟩ := h1
    have hfs1 : st1.fs = (cleanupLoop delOk
        (expOf verParse specCheck registry targets exts
          ((targets.map (fun p => p.1)).map (fun m => (m, []))))
        (fsOf verParse specCheck registry dl targets exts
          (ensureDirs fs0 (targets.map (fun p => p.1)))).1
        (targets.map (fun p => p.1))).1 := by
      rw [← hst1]
    have hkeysF : ∀ m ∈ targets.map (fun p => p.1),
        hasKey (fsOf verParse specCheck registry dl targets exts
          (ensureDirs fs0 (targets.map (fun p => p.1)))).1 m = true := by
      intro m hm
      rw [fsOf_hasKey]
      exact ensureDirs_hasKey fs0 hm
    have hkeys1 : ∀ m ∈ targets.map (fun p => p.1), hasKey st1.fs m = true := by
      intro m hm
      rw [hfs1, cleanupLoop_hasKey, fsOf_hasKey]
      exact ensureDirs_hasKey fs0 hm
    have hlookM : ∀ m ∈ targets.map (fun p => p.1),
        lookupD st1.fs m = (lookupD (fsOf verParse specCheck registry dl targets exts
            (ensureDirs fs0 (targets.map (fun p => p.1)))).1 m).filter
          (fun f => !(hasVsixExt f) ||
            decide (f ∈ lookupD (expOf verParse specCheck registry targets exts
              ((targets.map (fun p => p.1)).map (fun m => (m, [])))) m)) := by
      intro m hm
      rw [hfs1]
      exact cleanupLoop_success_lookup delOk _ hdel _ _ m hnd hkeysF hm
    have hexpE : ∀ q ∈ selEvents verParse specCheck registry targets exts,
        q.2 ∈ lookupD (expOf verParse specCheck registry targets exts
          ((targets.map (fun p => p.1)).map (fun m => (m, [])))) q.1 := by
      refine expOf_covers verParse specCheck registry targets exts _ (fun q hq => ?_)
      exact hasKey_map_nil
        (selEvents_markets verParse specCheck registry targets exts q hq)
    have hall : ∀ q ∈ selEvents verParse specCheck registry targets exts,
        q.2 ∈ lookupD st1.fs q.1 := by
      intro q hq
      rw [hlookM q.1 (selEvents_markets verParse specCheck registry targets exts q hq)]
      refine List.mem_filter.mpr ⟨hevF q hq, ?_⟩
      rw [selEvents_vsix verParse specCheck registry targets exts q hq]
      simp only [Bool.not_true, Bool.false_or, decide_eq_true_eq]
      exact hexpE q hq
    have hcond : ∀ m ∈ targets.map (fun p => p.1), ∀ f ∈ lookupD st1.fs m,
        hasVsixExt f = true →
        f ∈ lookupD (expOf verParse specCheck registry targets exts
          ((targets.map (fun p => p.1)).map (fun m => (m, [])))) m := by
      intro m hm f hf hvsix
      rw [hlookM m hm] at hf
      obtain ⟨_, hpred⟩ := List.mem_filter.mp hf
      rw [hvsix] at hpred
      simp only [Bool.not_true, Bool.false_or, decide_eq_true_eq] at hpred
      exact hpred
    rw [sync_markets_err_none verParse specCheck registry dl delOk targets exts st1.fs
      herr] at h2
    rw [ensureDirs_noop hkeys1] at h2
    rw [fsOf_all_present verParse specCheck registry dl targets exts st1.fs hall] at h2
    rw [cleanupLoop_noop delOk _ _ _ hcond] at h2
    simp only [Prod.mk.injEq] at h2
    obtain ⟨hst2, hd2, _⟩ := h2
    refine ⟨?_, hd2.symm, ?_⟩
    · rw [← hst2]
    · rw [← hst2]

/-- Witness for C2 at a concrete run: second sync over the directory
produced by the first performs zero downloads and deletions and leaves
the directory unchanged. -/
theorem sync_idempotent_witness :
    SyncState.downloads ⟨[("cursor", ["notes.txt", "b.good-1.0.0.vsix"])],
        [("cursor", ["b.good-1.0.0.vsix"])], 0, []⟩ = 0 ∧
    (0 : Nat) = 0 ∧
    SyncState.fs ⟨[("cursor", ["notes.txt", "b.good-1.0.0.vsix"])],
        [("cursor", ["b.good-1.0.0.vsix"])], 0, []⟩
      = SyncState.fs ⟨[("cursor", ["notes.txt", "b.good-1.0.0.vsix"])],
          [("cursor", ["b.good-1.0.0.vsix"])], 1, []⟩ :=
  sync_idempotent verParseC specCheckC regGood (fun _ _ => DlOutcome.ok)
    (fun _ _ => true) [("cursor", 1)] ["b.good"]
    [("cursor", ["stale-0.1.0.vsix", "notes.txt"])]
    ⟨[("cursor", ["notes.txt", "b.good-1.0.0.vsix"])],
      [("cursor", ["b.good-1.0.0.vsix"])], 1, []⟩
    ⟨[("cursor", ["notes.txt", "b.good-1.0.0.vsix"])],
      [("cursor", ["b.good-1.0.0.vsix"])], 0, []⟩
    1 0 none none
    (by decide) (fun _ _ => rfl) (fun _ _ => rfl) (by rfl) (by rfl)

end SyncVsix
